import Mathlib

/-!
A verification development for the OPPM package manager
(`oppm/oppm.py` of the Orion-Hash/oppm repository).

The Python class `OPPM` is embedded shallowly:

* `Manifest` models a fetched `package.json` document.
* `Env` models the external world: the remote store (an association
  list from package name to manifest; `none` lookup models a fetch or
  parse failure), per-file download success, and hook-script outcomes.
* `St` models the mutable state of one `OPPM` process: the in-memory
  `installed_packages` dict, the on-disk package directories (name to
  list of file paths present), the persisted `installed.json` content,
  and a trace of the observable events (console messages and network
  fetches) the Python code produces.
* Python dicts are modelled as association lists in insertion order
  (`alookup`, `aset`, `aerase` mirror `d[k]`, `d[k] = v`, `del d[k]`).
* The unbounded recursions of `_resolve_dependencies` and `install`
  (which recurses into dependency installs) are modelled with an
  explicit fuel argument; a stabilisation theorem shows the resolver
  result is independent of the fuel once the fuel exceeds the number
  of distinct package names in the store, which is the precise sense
  in which the Python recursion terminates.
-/

set_option linter.unusedVariables false

/-- A parsed `package.json`, as read by `OPPM._get_package_info`. -/
structure Manifest where
  version : String
  description : String
  author : String
  files : List String
  dependencies : List String
deriving DecidableEq, Repr

/-- The value stored in `installed_packages[name]` by `OPPM.install`. -/
structure PkgRec where
  version : String
  description : String
  installed_files : List String
  dependencies : List String
deriving DecidableEq, Repr

/-- The record `OPPM.install` writes for a package (lines 177-182). -/
def mkRecord (m : Manifest) : PkgRec :=
  ⟨m.version, m.description, m.files, m.dependencies⟩

/-- Outcome of running a hook script with `subprocess.run(..., check=True)`:
`exitFail` is a non-zero exit (raises `CalledProcessError`, which the code
catches); `spawnFail` is an error invoking the process at all (raises an
`OSError`, which the code does not catch). -/
inductive HookRes where
  | ok
  | exitFail
  | spawnFail
deriving DecidableEq, Repr

/-- Python dict lookup `d.get(k)` on an insertion-ordered association list. -/
def alookup {β : Type} : List (String × β) → String → Option β
  | [], _ => none
  | (k', v) :: rest, k => if k' = k then some v else alookup rest k

/-- Python dict update `d[k] = v`: replace in place, else append. -/
def aset {β : Type} : List (String × β) → String → β → List (String × β)
  | [], k, v => [(k, v)]
  | (k', v') :: rest, k, v =>
    if k' = k then (k, v) :: rest else (k', v') :: aset rest k v

/-- Python dict deletion `del d[k]` (keys are unique in a dict). -/
def aerase {β : Type} : List (String × β) → String → List (String × β)
  | [], _ => []
  | (k', v') :: rest, k => if k' = k then rest else (k', v') :: aerase rest k

/-- Observable events of one `OPPM` run: console messages and network
fetches, in the order the Python code produces them. -/
inductive Event where
  | alreadyInstalledMsg (p : String)
  | installingMsg (p : String)
  | fetchManifest (p : String) (ok : Bool)
  | errorMsg (p : String)
  | resolveWarn (p : String)
  | installingDepMsg (d : String)
  | dirExistsMsg (p : String)
  | downloaded (p f : String)
  | installErrorMsg (p : String)
  | postInstallRun (p : String)
  | hookWarn (p s : String)
  | installedMsg (p : String)
  | notInstalledMsg (p : String)
  | blockedMsg (p : String) (dependents : List String)
  | preUninstallRun (p : String)
  | uninstalledMsg (p : String)
  | unexpectedErrorMsg (p : String)
  | updatingMsg (p : String)
  | updatingAllMsg
deriving DecidableEq, Repr

/-- The remote store: package name to manifest; a missing entry models a
fetch or parse failure of `package.json`. -/
abbrev Repo := List (String × Manifest)

/-- The external world of one run. `fileOk p f` says whether downloading
file `f` of package `p` succeeds; `hook p s` is the outcome of running
hook script `s` of package `p`. Both are deterministic within a run. -/
structure Env where
  repo : Repo
  fileOk : String → String → Bool
  hook : String → String → HookRes

/-- Manifest lookup, modelling `OPPM._get_package_info`. -/
def lookupPkg (repo : Repo) (name : String) : Option Manifest :=
  alookup repo name

/-- State of the `OPPM` process: the in-memory `installed_packages`
dict, the package directories under `~/.oppm/packages` (directory name
to the file paths it contains), the persisted content of
`installed.json`, and the event trace. -/
structure St where
  installed : List (String × PkgRec)
  dirs : List (String × List String)
  saved : List (String × PkgRec)
  trace : List Event
deriving DecidableEq, Repr

/-- Result of `OPPM._resolve_dependencies`: the returned list, the
(shared, mutated) visited set, and the trace of fetches and warnings. -/
structure RRes where
  out : List String
  vis : List String
  tr : List Event
deriving DecidableEq, Repr

/-- The `for dep in deps` loop of `_resolve_dependencies` (lines
116-119), parameterised by the function `f` that resolves one
dependency (the recursive call at one less fuel). -/
def resolveGoF (repo : Repo) (inst : List (String × PkgRec))
    (f : String → List String → RRes) : List String → List String → RRes
  | [], vis => ⟨[], vis, []⟩
  | dep :: rest, vis =>
    if (alookup inst dep).isSome then resolveGoF repo inst f rest vis
    else
      let r1 := f dep vis
      let r2 := resolveGoF repo inst f rest r1.vis
      ⟨r1.out ++ dep :: r2.out, r2.vis, r1.tr ++ r2.tr⟩

/-- `OPPM._resolve_dependencies(name, resolved)` (lines 101-123).
The Python `resolved` set is threaded explicitly (it is one mutable set
shared by the whole traversal).  Fuel bounds the recursion depth; the
stabilisation theorem below shows any fuel larger than the number of
distinct store entries gives the same result, so the fuelled function
agrees with the unbounded Python recursion. -/
def resolveAux (repo : Repo) (inst : List (String × PkgRec)) :
    Nat → String → List String → RRes
  | 0, _, vis => ⟨[], vis, []⟩
  | fuel + 1, name, vis =>
    if name ∈ vis then ⟨[], vis, []⟩
    else
      match lookupPkg repo name with
      | none => ⟨[], name :: vis, [.fetchManifest name false, .resolveWarn name]⟩
      | some info =>
        let r := resolveGoF repo inst (fun d v => resolveAux repo inst fuel d v)
          info.dependencies (name :: vis)
        ⟨r.out, r.vis, .fetchManifest name true :: r.tr⟩

/-- The dependency loop at a given fuel. -/
def resolveGo (repo : Repo) (inst : List (String × PkgRec)) (fuel : Nat) :
    List String → List String → RRes :=
  resolveGoF repo inst (fun d v => resolveAux repo inst fuel d v)

/-- `OPPM._resolve_dependencies(name)` as called from `install` (line 141):
a fresh empty visited set.  The fuel `repo.length + 1` always exceeds the
number of distinct package names in the store, which the stabilisation
theorem shows is enough for the result to agree with the unbounded
Python recursion. -/
def resolveTop (repo : Repo) (inst : List (String × PkgRec)) (name : String) : RRes :=
  resolveAux repo inst (repo.length + 1) name []

/-- The trace of `OPPM._download_package_files` (lines 81-99): one
`downloaded` event per file until the first failing download. -/
def dlTrace (env : Env) (p : String) : List String → List Event
  | [] => []
  | f :: rest =>
    if env.fileOk p f then .downloaded p f :: dlTrace env p rest else []

/-- The final block of `OPPM.install` (lines 176-185): write the
`InstalledPackageRecord` and persist the whole store. -/
def installCommit (name : String) (info : Manifest) (st : St) : St :=
  let inst' := aset st.installed name (mkRecord info)
  { st with installed := inst', saved := inst',
            trace := st.trace ++ [.installedMsg name] }

/-- The `try` block of `OPPM.install` (lines 153-190): download every
file into staging; on any failure the `except` handler discards staging
and removes the package directory if present; on success the directory
is replaced, the post-install hook runs (a `spawnFail` outcome reaches
the outer `except`, which also removes the directory), and otherwise
the record is committed. -/
def installFinish (env : Env) (name : String) (info : Manifest) (st : St) : St :=
  let st3 : St := { st with trace := st.trace ++ dlTrace env name info.files }
  if info.files.isEmpty || !(info.files.all (env.fileOk name)) then
    { st3 with dirs := aerase st3.dirs name,
               trace := st3.trace ++ [.installErrorMsg name] }
  else
    let st4 : St := { st3 with dirs := aset st3.dirs name info.files }
    if "post_install.py" ∈ info.files then
      match env.hook name "post_install.py" with
      | .spawnFail =>
        { st4 with dirs := aerase st4.dirs name,
                   trace := st4.trace ++
                     [.postInstallRun name, .installErrorMsg name] }
      | .exitFail =>
        installCommit name info { st4 with trace := st4.trace ++
          [.postInstallRun name, .hookWarn name "post_install.py"] }
      | .ok =>
        installCommit name info { st4 with trace := st4.trace ++
          [.postInstallRun name] }
    else installCommit name info st4

/-- `OPPM.install` after the dependency loop: the directory-exists check
(lines 148-151) followed by the download/commit block. -/
def installAfterDeps (env : Env) (name : String) (force : Bool)
    (info : Manifest) (st : St) : St :=
  if (alookup st.dirs name).isSome && !force then
    { st with trace := st.trace ++ [.dirExistsMsg name] }
  else installFinish env name info st

/-- The `for dep in dependencies` loop of `install` (lines 142-145),
parameterised by the function `f` that installs one dependency (the
recursive call at one less fuel, with `force=False`). -/
def installDepsF (f : String → St → St) (name : String) : List String → St → St
  | [], st => st
  | dep :: rest, st =>
    if dep = name then installDepsF f name rest st
    else
      installDepsF f name rest
        (f dep { st with trace := st.trace ++ [.installingDepMsg dep] })

/-- `OPPM.install(package_name, force)` (lines 125-190), with fuel for
the recursive dependency installs.  Fuel 0 returns the state unchanged;
every claim below either holds at all fuels or takes a positive fuel. -/
def install (env : Env) : Nat → String → Bool → St → St
  | 0, _, _, st => st
  | fuel + 1, name, force, st =>
    if (alookup st.installed name).isSome && !force then
      { st with trace := st.trace ++ [.alreadyInstalledMsg name] }
    else
      match lookupPkg env.repo name with
      | none =>
        { st with trace := st.trace ++
            [.installingMsg name, .fetchManifest name false, .errorMsg name] }
      | some info =>
        let r := resolveTop env.repo st.installed name
        let st1 : St := { st with trace := st.trace ++
            [.installingMsg name, .fetchManifest name true] ++ r.tr }
        installAfterDeps env name force info
          (installDepsF (fun d s => install env fuel d false s) name r.out st1)

/-- The dependency-install loop at a given fuel. -/
def installDeps (env : Env) (fuel : Nat) (name : String) :
    List String → St → St :=
  installDepsF (fun d s => install env fuel d false s) name

/-- The final block of `OPPM.uninstall` (lines 221-229): delete the
directory, drop the record, persist the store. -/
def uninstallCommit (name : String) (st : St) : St :=
  let inst' := aerase st.installed name
  { st with dirs := aerase st.dirs name, installed := inst', saved := inst',
            trace := st.trace ++ [.uninstalledMsg name] }

/-- `OPPM.uninstall(package_name)` (lines 192-229).  A `spawnFail` of the
pre-uninstall hook models the uncaught `OSError`: it propagates out of
`uninstall` (caught only by the CLI main), so nothing is mutated. -/
def uninstall (env : Env) (name : String) (st : St) : St :=
  if (alookup st.installed name).isNone then
    { st with trace := st.trace ++ [.notInstalledMsg name] }
  else
    let dependents :=
      (st.installed.filter (fun e => e.2.dependencies.contains name)).map Prod.fst
    if dependents ≠ [] then
      { st with trace := st.trace ++ [.blockedMsg name dependents] }
    else
      if "pre_uninstall.py" ∈ (alookup st.dirs name).getD [] then
        match env.hook name "pre_uninstall.py" with
        | .spawnFail =>
          { st with trace := st.trace ++
              [.preUninstallRun name, .unexpectedErrorMsg name] }
        | .exitFail =>
          uninstallCommit name { st with trace := st.trace ++
            [.preUninstallRun name, .hookWarn name "pre_uninstall.py"] }
        | .ok =>
          uninstallCommit name { st with trace := st.trace ++
            [.preUninstallRun name] }
      else uninstallCommit name st

/-- `OPPM.update(package_name)` (lines 288-300). -/
def update (env : Env) (fuel : Nat) : Option String → St → St
  | some name, st =>
    if (alookup st.installed name).isNone then
      { st with trace := st.trace ++ [.notInstalledMsg name] }
    else
      install env fuel name true { st with trace := st.trace ++ [.updatingMsg name] }
  | none, st =>
    (st.installed.map Prod.fst).foldl
      (fun s p => install env fuel p true
        { s with trace := s.trace ++ [.updatingMsg p] })
      { st with trace := st.trace ++ [.updatingAllMsg] }

/-- `OPPM._load_installed_packages` (lines 36-44).  The outer `Option`
is whether `installed.json` exists; the inner `Option` is whether its
content parses as JSON (`none` models a `json.JSONDecodeError`, which
the code catches and turns into the empty mapping). -/
def loadInstalledPackages :
    Option (Option (List (String × PkgRec))) → List (String × PkgRec)
  | none => []
  | some none => []
  | some (some m) => m

/-- The process state right after `OPPM.__init__`: the installed mapping
loaded from disk, whatever package directories already exist on disk,
an empty trace.  `saved` holds the installed mapping the persisted file
denotes (empty when the file is absent or unparsable). -/
def startupSt (disk : Option (Option (List (String × PkgRec))))
    (dirs : List (String × List String)) : St :=
  ⟨loadInstalledPackages disk, dirs, loadInstalledPackages disk, []⟩

/-- The store package names not yet visited: the measure that shrinks
as `_resolve_dependencies` marks packages visited. -/
def unvisited (repo : Repo) (vis : List String) : Finset String :=
  (repo.map Prod.fst).toFinset.filter (fun x => x ∉ vis)

/-- `Reach repo inst root d`: `d` is a transitive dependency of `root`
that is not already installed, along a chain of not-yet-installed
dependencies whose manifests the store can deliver — exactly the
packages the spec's resolver contract says must be returned. -/
inductive Reach (repo : Repo) (inst : List (String × PkgRec)) :
    String → String → Prop where
  | base : ∀ {root d : String} {m : Manifest}, lookupPkg repo root = some m →
      d ∈ m.dependencies → alookup inst d = none → Reach repo inst root d
  | step : ∀ {root x d : String} {m : Manifest}, Reach repo inst root x →
      lookupPkg repo x = some m → d ∈ m.dependencies →
      alookup inst d = none → Reach repo inst root d

/-- `x` is dependency-closed with respect to the output already emitted:
every not-yet-installed dependency of `x` occurs in `pre`. -/
def Closed (repo : Repo) (inst : List (String × PkgRec))
    (pre : List String) (x : String) : Prop :=
  ∀ m, lookupPkg repo x = some m → ∀ d ∈ m.dependencies,
    alookup inst d = none → d ∈ pre

/-- Each element of the list is dependency-closed with respect to the
elements emitted before it (starting from the already emitted `pre`):
dependencies come before dependents. -/
def Ordered (repo : Repo) (inst : List (String × PkgRec)) :
    List String → List String → Prop
  | _, [] => True
  | pre, x :: l => Closed repo inst pre x ∧ Ordered repo inst (pre ++ [x]) l

/-- A rank function witnessing that the dependency graph restricted to
not-yet-installed dependency targets is acyclic. -/
def RankOk (repo : Repo) (inst : List (String × PkgRec))
    (rk : String → Nat) : Prop :=
  ∀ e ∈ repo, ∀ d ∈ e.2.dependencies,
    alookup inst d = none → rk d < rk e.1

/-! ### Concrete instances used by witnesses and counterexamples -/

/-- A manifest with the given dependencies and files. -/
def mkM (deps files : List String) : Manifest :=
  ⟨"1.0.0", "", "", files, deps⟩

/-- Diamond store: `a` depends on `b` and `c`, both depend on `d`. -/
def exRepoDiamond : Repo :=
  [("a", mkM ["b", "c"] ["a.py"]), ("b", mkM ["d"] ["b.py"]),
   ("c", mkM ["d"] ["c.py"]), ("d", mkM [] ["d.py"])]

/-- Cyclic store: `a → b`, `b → c` and `b → a`, `c → b`. -/
def exRepoCyc : Repo :=
  [("a", mkM ["b"] ["a.py"]), ("b", mkM ["c", "a"] ["b.py"]),
   ("c", mkM ["b"] ["c.py"])]

/-- An environment where every download succeeds and every hook exits 0. -/
def envOk (repo : Repo) : Env := ⟨repo, fun _ _ => true, fun _ _ => .ok⟩

/-- The empty starting state: nothing installed, no directories. -/
def st0 : St := ⟨[], [], [], []⟩

/-- Store with a single package `a` with two files and no dependencies. -/
def exRepoA : Repo := [("a", mkM [] ["a.py", "util.py"])]

/-- Store with `a` (one file plus a post-install hook) and `b → a`. -/
def exRepoHook : Repo :=
  [("a", mkM [] ["a.py", "post_install.py"])]

/-- Environment over `exRepoHook` whose post-install hook cannot be
spawned (models an `OSError` from `subprocess.run`). -/
def envHookSpawnFail : Env :=
  ⟨exRepoHook, fun _ _ => true, fun _ _ => .spawnFail⟩

/-- Environment over `exRepoA` where the download of `util.py` fails. -/
def envDlFail : Env :=
  ⟨exRepoA, fun _ f => f ≠ "util.py", fun _ _ => .ok⟩

/-- A state with `a` installed (record listing a pre-uninstall hook and
no dependencies) and its directory containing the hook script. -/
def stWithA : St :=
  ⟨[("a", ⟨"1.0.0", "", ["a.py", "pre_uninstall.py"], []⟩)],
   [("a", ["a.py", "pre_uninstall.py"])],
   [("a", ⟨"1.0.0", "", ["a.py", "pre_uninstall.py"], []⟩)], []⟩

/-- Environment whose pre-uninstall hook cannot be spawned. -/
def envPreHookSpawnFail : Env :=
  ⟨[], fun _ _ => true, fun _ _ => .spawnFail⟩

/-- Package `p` can never complete a download in `env`: its manifest
fetch fails, or its file list is empty, or some file download fails. -/
def pBroken (env : Env) (p : String) : Prop :=
  ∀ info, lookupPkg env.repo p = some info →
    info.files = [] ∨ ∃ f ∈ info.files, env.fileOk p f = false

/-- `st'` preserves package `p`'s slice of the state relative to `st`:
the in-memory record for `p` is unchanged; the persisted record for `p`
is unchanged or a re-persist of the unchanged in-memory one; `p`'s
package directory is untouched or removed (never replaced). -/
def PresP (p : String) (st st' : St) : Prop :=
  alookup st'.installed p = alookup st.installed p ∧
  (alookup st'.saved p = alookup st.saved p ∨
    alookup st'.saved p = alookup st.installed p) ∧
  (alookup st'.dirs p = alookup st.dirs p ∨ alookup st'.dirs p = none)

/-- The association list has no duplicate keys (true of every list that
models a Python dict or a directory of uniquely-named subdirectories). -/
def keysNodup {β : Type} (l : List (String × β)) : Prop :=
  (l.map Prod.fst).Nodup

/-- Prepend previously accumulated trace events to a state. -/
def addTrace (t : List Event) (st : St) : St :=
  { st with trace := t ++ st.trace }

/-- Equality of the three persistent state components (everything but
the console/network trace). -/
def StCoreEq (a b : St) : Prop :=
  a.installed = b.installed ∧ a.dirs = b.dirs ∧ a.saved = b.saved

/-- A rank function witnessing acyclicity of `exRepoDiamond`. -/
def exRank : String → Nat :=
  fun s => if s = "a" then 3 else if s = "b" then 2 else if s = "c" then 2 else 1

/-- A state with `a` and `b` installed where `b` depends on `a`. -/
def stDep : St :=
  ⟨[("a", ⟨"1.0.0", "", ["a.py"], []⟩), ("b", ⟨"1.0.0", "", ["b.py"], ["a"]⟩)],
   [("a", ["a.py"]), ("b", ["b.py"])],
   [("a", ⟨"1.0.0", "", ["a.py"], []⟩), ("b", ⟨"1.0.0", "", ["b.py"], ["a"]⟩)], []⟩

/-- A state with a single installed package `a` whose own recorded
dependency list contains `a` itself. -/
def stSelf : St :=
  ⟨[("a", ⟨"1.0.0", "", ["a.py"], ["a"]⟩)], [("a", ["a.py"])],
   [("a", ⟨"1.0.0", "", ["a.py"], ["a"]⟩)], []⟩

/-- Environment over `exRepoHook` whose hooks run but exit non-zero. -/
def envHookExit : Env :=
  ⟨exRepoHook, fun _ _ => true, fun _ _ => .exitFail⟩

/-- Environment with an empty store whose hooks exit non-zero. -/
def envPreHookExit : Env :=
  ⟨[], fun _ _ => true, fun _ _ => .exitFail⟩

/-- Store where `a` (one downloadable file) depends on `zz`, whose
manifest the store cannot deliver: the dependency install fails. -/
def exRepoDep : Repo := [("a", mkM ["zz"] ["a.py"])]

/-! ### Association list lemmas -/

lemma alookup_mem {β : Type} {l : List (String × β)} {k : String} {v : β}
    (h : alookup l k = some v) : (k, v) ∈ l := by
  induction l with
  | nil => simp [alookup] at h
  | cons e rest ih =>
    obtain ⟨k', v'⟩ := e
    by_cases hk : k' = k
    · subst hk
      simp [alookup] at h
      simp [h]
    · simp [alookup, hk] at h
      exact List.mem_cons_of_mem _ (ih h)

lemma alookup_aset_ne {β : Type} (l : List (String × β)) {k p : String} (v : β)
    (h : k ≠ p) : alookup (aset l k v) p = alookup l p := by
  induction l with
  | nil => simp [aset, alookup, h]
  | cons e rest ih =>
    obtain ⟨k', v'⟩ := e
    by_cases hk : k' = k
    · subst hk
      simp [aset, alookup, h]
    · simp [aset, hk, alookup]
      by_cases hp : k' = p
      · simp [hp]
      · simp [hp, ih]

lemma alookup_aset_self {β : Type} (l : List (String × β)) (k : String) (v : β) :
    alookup (aset l k v) k = some v := by
  induction l with
  | nil => simp [aset, alookup]
  | cons e rest ih =>
    obtain ⟨k', v'⟩ := e
    by_cases hk : k' = k
    · subst hk
      simp [aset, alookup]
    · simp [aset, hk, alookup, ih]

lemma alookup_aerase_ne {β : Type} (l : List (String × β)) {k p : String}
    (h : k ≠ p) : alookup (aerase l k) p = alookup l p := by
  induction l with
  | nil => simp [aerase]
  | cons e rest ih =>
    obtain ⟨k', v'⟩ := e
    by_cases hk : k' = k
    · subst hk
      simp [aerase, alookup, h]
    · simp [aerase, hk, alookup]
      by_cases hp : k' = p
      · simp [hp]
      · simp [hp, ih]

/-! ### Resolver: unfolding equations -/

section ResolveLemmas

variable {repo : Repo} {inst : List (String × PkgRec)}

lemma resolveAux_zero (name : String) (vis : List String) :
    resolveAux repo inst 0 name vis = ⟨[], vis, []⟩ := by
  simp [resolveAux]

lemma resolveAux_mem {name : String} {vis : List String} (fuel : Nat)
    (hv : name ∈ vis) :
    resolveAux repo inst (fuel + 1) name vis = ⟨[], vis, []⟩ := by
  simp [resolveAux, hv]

lemma resolveAux_notfound {name : String} {vis : List String} (fuel : Nat)
    (hv : name ∉ vis) (hm : lookupPkg repo name = none) :
    resolveAux repo inst (fuel + 1) name vis =
      ⟨[], name :: vis, [.fetchManifest name false, .resolveWarn name]⟩ := by
  simp [resolveAux, hv, hm]

lemma resolveAux_found {name : String} {vis : List String} {info : Manifest}
    (fuel : Nat) (hv : name ∉ vis) (hm : lookupPkg repo name = some info) :
    resolveAux repo inst (fuel + 1) name vis =
      ⟨(resolveGo repo inst fuel info.dependencies (name :: vis)).out,
       (resolveGo repo inst fuel info.dependencies (name :: vis)).vis,
       .fetchManifest name true ::
         (resolveGo repo inst fuel info.dependencies (name :: vis)).tr⟩ := by
  simp [resolveAux, resolveGo, hv, hm]

lemma resolveGo_nil (fuel : Nat) (vis : List String) :
    resolveGo repo inst fuel [] vis = ⟨[], vis, []⟩ := by
  simp [resolveGo, resolveGoF]

lemma resolveGo_skip {dep : String} (fuel : Nat) (rest : List String)
    (vis : List String) (hi : (alookup inst dep).isSome) :
    resolveGo repo inst fuel (dep :: rest) vis =
      resolveGo repo inst fuel rest vis := by
  simp [resolveGo, resolveGoF, hi]

lemma resolveGo_cons {dep : String} (fuel : Nat) (rest : List String)
    (vis : List String) (hi : alookup inst dep = none) :
    resolveGo repo inst fuel (dep :: rest) vis =
      ⟨(resolveAux repo inst fuel dep vis).out ++ dep ::
         (resolveGo repo inst fuel rest (resolveAux repo inst fuel dep vis).vis).out,
       (resolveGo repo inst fuel rest (resolveAux repo inst fuel dep vis).vis).vis,
       (resolveAux repo inst fuel dep vis).tr ++
         (resolveGo repo inst fuel rest (resolveAux repo inst fuel dep vis).vis).tr⟩ := by
  simp [resolveGo, resolveGoF, hi]

/-! ### Resolver: the visited set only grows -/

lemma resolveGo_vis_ext_of (fuel : Nat)
    (hA : ∀ name vis, ∃ pre, (resolveAux repo inst fuel name vis).vis = pre ++ vis) :
    ∀ deps vis, ∃ pre, (resolveGo repo inst fuel deps vis).vis = pre ++ vis := by
  intro deps
  induction deps with
  | nil => intro vis; exact ⟨[], by simp [resolveGo_nil]⟩
  | cons dep rest ih =>
    intro vis
    by_cases hi : (alookup inst dep).isSome
    · rw [resolveGo_skip fuel rest vis hi]; exact ih vis
    · rw [Option.not_isSome_iff_eq_none] at hi
      obtain ⟨p1, h1⟩ := hA dep vis
      obtain ⟨p2, h2⟩ := ih (resolveAux repo inst fuel dep vis).vis
      refine ⟨p2 ++ p1, ?_⟩
      rw [resolveGo_cons fuel rest vis hi]
      rw [h2, h1, List.append_assoc]

lemma resolveAux_vis_ext (repo : Repo) (inst : List (String × PkgRec)) :
    ∀ fuel name vis, ∃ pre, (resolveAux repo inst fuel name vis).vis = pre ++ vis := by
  intro fuel
  induction fuel with
  | zero => intro name vis; exact ⟨[], by simp [resolveAux_zero]⟩
  | succ f ih =>
    intro name vis
    by_cases hv : name ∈ vis
    · exact ⟨[], by simp [resolveAux_mem f hv]⟩
    · match hm : lookupPkg repo name with
      | none => exact ⟨[name], by simp [resolveAux_notfound f hv hm]⟩
      | some info =>
        obtain ⟨p, hp⟩ := resolveGo_vis_ext_of f ih info.dependencies (name :: vis)
        refine ⟨p ++ [name], ?_⟩
        rw [resolveAux_found f hv hm]
        simpa using hp

lemma resolveGo_vis_ext (repo : Repo) (inst : List (String × PkgRec)) :
    ∀ fuel deps vis, ∃ pre, (resolveGo repo inst fuel deps vis).vis = pre ++ vis :=
  fun fuel => resolveGo_vis_ext_of fuel (resolveAux_vis_ext repo inst fuel)

lemma resolveAux_vis_subset {fuel : Nat} {name : String} {vis : List String} :
    vis ⊆ (resolveAux repo inst fuel name vis).vis := by
  obtain ⟨p, hp⟩ := resolveAux_vis_ext repo inst fuel name vis
  rw [hp]; exact List.subset_append_right _ _

lemma resolveGo_vis_subset {fuel : Nat} {deps : List String} {vis : List String} :
    vis ⊆ (resolveGo repo inst fuel deps vis).vis := by
  obtain ⟨p, hp⟩ := resolveGo_vis_ext repo inst fuel deps vis
  rw [hp]; exact List.subset_append_right _ _

lemma resolveAux_self_mem_vis {fuel : Nat} {name : String} {vis : List String}
    (hf : 0 < fuel) :
    name ∈ (resolveAux repo inst fuel name vis).vis := by
  cases fuel with
  | zero => exact absurd hf (by simp)
  | succ f =>
    by_cases hv : name ∈ vis
    · rw [resolveAux_mem f hv]; exact hv
    · match hm : lookupPkg repo name with
      | none => rw [resolveAux_notfound f hv hm]; exact List.mem_cons_self _ _
      | some info =>
        rw [resolveAux_found f hv hm]
        exact resolveGo_vis_subset (List.mem_cons_self _ _)

end ResolveLemmas

/-! ### The unvisited-names measure -/

lemma mem_names_of_lookup {repo : Repo} {n : String} {m : Manifest}
    (hm : lookupPkg repo n = some m) : n ∈ repo.map Prod.fst :=
  List.mem_map.mpr ⟨(n, m), alookup_mem hm, rfl⟩

lemma unvisited_anti {repo : Repo} {vis vis' : List String} (h : vis ⊆ vis') :
    (unvisited repo vis').card ≤ (unvisited repo vis).card := by
  apply Finset.card_le_card
  intro x hx
  simp only [unvisited, Finset.mem_filter] at hx ⊢
  exact ⟨hx.1, fun hm => hx.2 (h hm)⟩

lemma mem_unvisited {repo : Repo} {vis : List String} {x : String} :
    x ∈ unvisited repo vis ↔ x ∈ repo.map Prod.fst ∧ x ∉ vis := by
  simp [unvisited]

lemma unvisited_cons_lt {repo : Repo} {n : String} {m : Manifest}
    {vis : List String} (hm : lookupPkg repo n = some m) (hv : n ∉ vis) :
    (unvisited repo (n :: vis)).card < (unvisited repo vis).card := by
  have hn : n ∈ unvisited repo vis :=
    mem_unvisited.mpr ⟨mem_names_of_lookup hm, hv⟩
  have hsub : unvisited repo (n :: vis) ⊆ (unvisited repo vis).erase n := by
    intro x hx
    obtain ⟨hx1, hx2⟩ := mem_unvisited.mp hx
    rw [List.mem_cons, not_or] at hx2
    exact Finset.mem_erase.mpr ⟨hx2.1, mem_unvisited.mpr ⟨hx1, hx2.2⟩⟩
  exact lt_of_le_of_lt (Finset.card_le_card hsub) (Finset.card_erase_lt_of_mem hn)

lemma unvisited_card_le (repo : Repo) (vis : List String) :
    (unvisited repo vis).card ≤ repo.length := by
  have h1 : (unvisited repo vis).card ≤ (repo.map Prod.fst).toFinset.card :=
    Finset.card_le_card (Finset.filter_subset _ _)
  have h2 : (repo.map Prod.fst).toFinset.card ≤ (repo.map Prod.fst).length :=
    List.toFinset_card_le _
  rw [List.length_map] at h2
  omega

/-! ### Resolver stabilisation: enough fuel makes the fuel irrelevant -/

lemma resolveGo_step_of {repo : Repo} {inst : List (String × PkgRec)} (fuel : Nat)
    (hA : ∀ name vis, (unvisited repo vis).card < fuel →
      resolveAux repo inst fuel name vis = resolveAux repo inst (fuel + 1) name vis) :
    ∀ deps vis, (unvisited repo vis).card < fuel →
      resolveGo repo inst fuel deps vis = resolveGo repo inst (fuel + 1) deps vis := by
  intro deps
  induction deps with
  | nil => intro vis h; rw [resolveGo_nil, resolveGo_nil]
  | cons dep rest ih =>
    intro vis h
    by_cases hi : (alookup inst dep).isSome
    · rw [resolveGo_skip fuel rest vis hi, resolveGo_skip (fuel + 1) rest vis hi]
      exact ih vis h
    · rw [Option.not_isSome_iff_eq_none] at hi
      rw [resolveGo_cons fuel rest vis hi, resolveGo_cons (fuel + 1) rest vis hi]
      have e1 := hA dep vis h
      have hcard : (unvisited repo (resolveAux repo inst fuel dep vis).vis).card < fuel :=
        lt_of_le_of_lt (unvisited_anti resolveAux_vis_subset) h
      have e2 := ih (resolveAux repo inst fuel dep vis).vis hcard
      rw [e1] at e2 ⊢
      rw [e2]

lemma resolveAux_step {repo : Repo} {inst : List (String × PkgRec)} :
    ∀ fuel name vis, (unvisited repo vis).card < fuel →
      resolveAux repo inst fuel name vis = resolveAux repo inst (fuel + 1) name vis := by
  intro fuel
  induction fuel with
  | zero => intro name vis h; exact absurd h (Nat.not_lt_zero _)
  | succ f ih =>
    intro name vis h
    by_cases hv : name ∈ vis
    · rw [resolveAux_mem f hv, resolveAux_mem (f + 1) hv]
    · match hm : lookupPkg repo name with
      | none => rw [resolveAux_notfound f hv hm, resolveAux_notfound (f + 1) hv hm]
      | some info =>
        rw [resolveAux_found f hv hm, resolveAux_found (f + 1) hv hm]
        have hcard : (unvisited repo (name :: vis)).card < f := by
          have := unvisited_cons_lt hm hv
          omega
        rw [resolveGo_step_of f ih info.dependencies (name :: vis) hcard]

lemma resolveAux_add {repo : Repo} {inst : List (String × PkgRec)} :
    ∀ (k fuel : Nat) (name : String) (vis : List String),
      (unvisited repo vis).card < fuel →
      resolveAux repo inst fuel name vis = resolveAux repo inst (fuel + k) name vis := by
  intro k
  induction k with
  | zero => intro fuel name vis h; rfl
  | succ j ih =>
    intro fuel name vis h
    rw [ih fuel name vis h]
    have h2 : (unvisited repo vis).card < fuel + j := lt_of_lt_of_le h (Nat.le_add_right _ _)
    rw [resolveAux_step (fuel + j) name vis h2, Nat.add_assoc]

lemma resolveAux_stab {repo : Repo} {inst : List (String × PkgRec)}
    {fuel fuel' : Nat} {name : String} {vis : List String}
    (h : (unvisited repo vis).card < fuel) (h' : (unvisited repo vis).card < fuel') :
    resolveAux repo inst fuel name vis = resolveAux repo inst fuel' name vis := by
  rcases Nat.le_total fuel fuel' with hle | hle
  · obtain ⟨k, rfl⟩ := Nat.exists_eq_add_of_le hle
    exact resolveAux_add k fuel name vis h
  · obtain ⟨k, rfl⟩ := Nat.exists_eq_add_of_le hle
    exact (resolveAux_add k fuel' name vis h').symm

/-! ### Every dependency of a processed package lands in the output.

`_resolve_dependencies` appends every not-yet-installed dependency of
every package it processes (marks visited) to the returned list --
unconditionally, line 119, even when the dependency was already
visited. -/

lemma resolveGo_out_of {repo : Repo} {inst : List (String × PkgRec)} (fuel : Nat)
    (hA : ∀ name vis, ∀ z ∈ (resolveAux repo inst fuel name vis).vis, z ∉ vis →
      ∀ m, lookupPkg repo z = some m → ∀ d ∈ m.dependencies,
        alookup inst d = none → d ∈ (resolveAux repo inst fuel name vis).out) :
    ∀ deps vis,
      (∀ d ∈ deps, alookup inst d = none → d ∈ (resolveGo repo inst fuel deps vis).out) ∧
      (∀ z ∈ (resolveGo repo inst fuel deps vis).vis, z ∉ vis →
        ∀ m, lookupPkg repo z = some m → ∀ d ∈ m.dependencies,
          alookup inst d = none → d ∈ (resolveGo repo inst fuel deps vis).out) := by
  intro deps
  induction deps with
  | nil =>
    intro vis
    rw [resolveGo_nil]
    exact ⟨fun d hd => absurd hd (List.not_mem_nil d),
           fun z hz hznv => absurd hz hznv⟩
  | cons dep rest ih =>
    intro vis
    by_cases hi : (alookup inst dep).isSome
    · rw [resolveGo_skip fuel rest vis hi]
      refine ⟨fun d hd hdn => ?_, (ih vis).2⟩
      rcases List.mem_cons.mp hd with rfl | hd2
      · rw [hdn] at hi; simp at hi
      · exact (ih vis).1 d hd2 hdn
    · rw [Option.not_isSome_iff_eq_none] at hi
      rw [resolveGo_cons fuel rest vis hi]
      simp only [List.mem_append, List.mem_cons]
      constructor
      · intro d hd hdn
        rcases hd with rfl | hd2
        · exact Or.inr (Or.inl rfl)
        · exact Or.inr (Or.inr ((ih _).1 d hd2 hdn))
      · intro z hz hznv m hm d hd hdn
        by_cases hz1 : z ∈ (resolveAux repo inst fuel dep vis).vis
        · exact Or.inl (hA dep vis z hz1 hznv m hm d hd hdn)
        · exact Or.inr (Or.inr ((ih _).2 z hz hz1 m hm d hd hdn))

lemma resolveAux_out_closed {repo : Repo} {inst : List (String × PkgRec)} :
    ∀ fuel name vis, ∀ z ∈ (resolveAux repo inst fuel name vis).vis, z ∉ vis →
      ∀ m, lookupPkg repo z = some m → ∀ d ∈ m.dependencies,
        alookup inst d = none → d ∈ (resolveAux repo inst fuel name vis).out := by
  intro fuel
  induction fuel with
  | zero =>
    intro name vis z hz hznv
    rw [resolveAux_zero] at hz
    exact absurd hz hznv
  | succ f ih =>
    intro name vis z hz hznv m hm d hd hdn
    by_cases hv : name ∈ vis
    · rw [resolveAux_mem f hv] at hz
      exact absurd hz hznv
    · match hnm : lookupPkg repo name with
      | none =>
        rw [resolveAux_notfound f hv hnm] at hz
        rcases List.mem_cons.mp hz with rfl | hz2
        · simp [hm] at hnm
        · exact absurd hz2 hznv
      | some info =>
        rw [resolveAux_found f hv hnm] at hz ⊢
        by_cases hzn : z = name
        · subst hzn
          rw [hm] at hnm
          have hinfo : m = info := Option.some.inj hnm
          rw [hinfo] at hd
          exact (resolveGo_out_of f ih info.dependencies (z :: vis)).1 d hd hdn
        · have hz3 : z ∉ name :: vis := by
            rw [List.mem_cons, not_or]; exact ⟨hzn, hznv⟩
          exact (resolveGo_out_of f ih info.dependencies (name :: vis)).2
            z hz hz3 m hm d hd hdn

lemma resolveGo_out_complete {repo : Repo} {inst : List (String × PkgRec)}
    (fuel : Nat) (deps : List String) (vis : List String) :
    ∀ d ∈ deps, alookup inst d = none → d ∈ (resolveGo repo inst fuel deps vis).out :=
  (resolveGo_out_of fuel (resolveAux_out_closed fuel) deps vis).1

/-! ### Every dependency of a processed package also gets visited
(given enough fuel). -/

lemma resolveGo_vis_of {repo : Repo} {inst : List (String × PkgRec)} (fuel : Nat)
    (hA : ∀ name vis, (unvisited repo vis).card < fuel →
      ∀ z ∈ (resolveAux repo inst fuel name vis).vis, z ∉ vis →
      ∀ m, lookupPkg repo z = some m → ∀ d ∈ m.dependencies,
        alookup inst d = none → d ∈ (resolveAux repo inst fuel name vis).vis) :
    ∀ deps vis, (unvisited repo vis).card < fuel →
      (∀ d ∈ deps, alookup inst d = none → d ∈ (resolveGo repo inst fuel deps vis).vis) ∧
      (∀ z ∈ (resolveGo repo inst fuel deps vis).vis, z ∉ vis →
        ∀ m, lookupPkg repo z = some m → ∀ d ∈ m.dependencies,
          alookup inst d = none → d ∈ (resolveGo repo inst fuel deps vis).vis) := by
  intro deps
  induction deps with
  | nil =>
    intro vis hc
    rw [resolveGo_nil]
    exact ⟨fun d hd => absurd hd (List.not_mem_nil d),
           fun z hz hznv => absurd hz hznv⟩
  | cons dep rest ih =>
    intro vis hc
    by_cases hi : (alookup inst dep).isSome
    · rw [resolveGo_skip fuel rest vis hi]
      refine ⟨fun d hd hdn => ?_, (ih vis hc).2⟩
      rcases List.mem_cons.mp hd with rfl | hd2
      · rw [hdn] at hi; simp at hi
      · exact (ih vis hc).1 d hd2 hdn
    · rw [Option.not_isSome_iff_eq_none] at hi
      rw [resolveGo_cons fuel rest vis hi]
      have hc1 : (unvisited repo (resolveAux repo inst fuel dep vis).vis).card < fuel :=
        lt_of_le_of_lt (unvisited_anti resolveAux_vis_subset) hc
      constructor
      · intro d hd hdn
        rcases List.mem_cons.mp hd with rfl | hd2
        · exact resolveGo_vis_subset (resolveAux_self_mem_vis (Nat.pos_of_ne_zero
            (fun h0 => by rw [h0] at hc; exact absurd hc (Nat.not_lt_zero _))))
        · exact (ih _ hc1).1 d hd2 hdn
      · intro z hz hznv m hm d hd hdn
        by_cases hz1 : z ∈ (resolveAux repo inst fuel dep vis).vis
        · exact resolveGo_vis_subset (hA dep vis hc z hz1 hznv m hm d hd hdn)
        · exact (ih _ hc1).2 z hz hz1 m hm d hd hdn

lemma resolveAux_vis_closed {repo : Repo} {inst : List (String × PkgRec)} :
    ∀ fuel name vis, (unvisited repo vis).card < fuel →
      ∀ z ∈ (resolveAux repo inst fuel name vis).vis, z ∉ vis →
      ∀ m, lookupPkg repo z = some m → ∀ d ∈ m.dependencies,
        alookup inst d = none → d ∈ (resolveAux repo inst fuel name vis).vis := by
  intro fuel
  induction fuel with
  | zero => intro name vis hc; exact absurd hc (Nat.not_lt_zero _)
  | succ f ih =>
    intro name vis hc z hz hznv m hm d hd hdn
    by_cases hv : name ∈ vis
    · rw [resolveAux_mem f hv] at hz
      exact absurd hz hznv
    · match hnm : lookupPkg repo name with
      | none =>
        rw [resolveAux_notfound f hv hnm] at hz ⊢
        rcases List.mem_cons.mp hz with rfl | hz2
        · simp [hm] at hnm
        · exact absurd hz2 hznv
      | some info =>
        have hc1 : (unvisited repo (name :: vis)).card < f := by
          have := unvisited_cons_lt hnm hv
          omega
        rw [resolveAux_found f hv hnm] at hz ⊢
        by_cases hzn : z = name
        · subst hzn
          rw [hm] at hnm
          have hinfo : m = info := Option.some.inj hnm
          rw [hinfo] at hd
          exact (resolveGo_vis_of f ih info.dependencies (z :: vis) hc1).1 d hd hdn
        · have hz3 : z ∉ name :: vis := by
            rw [List.mem_cons, not_or]; exact ⟨hzn, hznv⟩
          exact (resolveGo_vis_of f ih info.dependencies (name :: vis) hc1).2
            z hz hz3 m hm d hd hdn

/-! ### Completeness: every transitive not-installed dependency is returned -/

lemma reach_mem_vis {repo : Repo} {inst : List (String × PkgRec)}
    {t z : String} (h : Reach repo inst t z) :
    z ∈ (resolveTop repo inst t).vis := by
  have hc : (unvisited repo ([] : List String)).card < repo.length + 1 :=
    Nat.lt_succ_of_le (unvisited_card_le repo [])
  induction h with
  | base hm hd hn =>
    have ht : t ∈ (resolveTop repo inst t).vis :=
      resolveAux_self_mem_vis (Nat.succ_pos _)
    exact resolveAux_vis_closed (repo.length + 1) t [] hc t ht
      (List.not_mem_nil t) _ hm _ hd hn
  | step hR hm hd hn ih =>
    exact resolveAux_vis_closed (repo.length + 1) t [] hc _ ih
      (List.not_mem_nil _) _ hm _ hd hn

lemma reach_mem_out {repo : Repo} {inst : List (String × PkgRec)}
    {t z : String} (h : Reach repo inst t z) :
    z ∈ (resolveTop repo inst t).out := by
  cases h with
  | base hm hd hn =>
    have ht : t ∈ (resolveTop repo inst t).vis :=
      resolveAux_self_mem_vis (Nat.succ_pos _)
    exact resolveAux_out_closed (repo.length + 1) t [] t ht
      (List.not_mem_nil t) _ hm _ hd hn
  | step hR hm hd hn =>
    exact resolveAux_out_closed (repo.length + 1) t [] _ (reach_mem_vis hR)
      (List.not_mem_nil _) _ hm _ hd hn

/-! ### Everything returned is not yet installed -/

lemma resolveGo_out_none_of {repo : Repo} {inst : List (String × PkgRec)} (fuel : Nat)
    (hA : ∀ name vis, ∀ x ∈ (resolveAux repo inst fuel name vis).out,
      alookup inst x = none) :
    ∀ deps vis, ∀ x ∈ (resolveGo repo inst fuel deps vis).out,
      alookup inst x = none := by
  intro deps
  induction deps with
  | nil => intro vis x hx; rw [resolveGo_nil] at hx; exact absurd hx (List.not_mem_nil x)
  | cons dep rest ih =>
    intro vis x hx
    by_cases hi : (alookup inst dep).isSome
    · rw [resolveGo_skip fuel rest vis hi] at hx
      exact ih vis x hx
    · rw [Option.not_isSome_iff_eq_none] at hi
      rw [resolveGo_cons fuel rest vis hi] at hx
      simp only [List.mem_append, List.mem_cons] at hx
      rcases hx with h1 | rfl | h2
      · exact hA dep vis x h1
      · exact hi
      · exact ih _ x h2

lemma resolveAux_out_none {repo : Repo} {inst : List (String × PkgRec)} :
    ∀ fuel name vis, ∀ x ∈ (resolveAux repo inst fuel name vis).out,
      alookup inst x = none := by
  intro fuel
  induction fuel with
  | zero =>
    intro name vis x hx
    rw [resolveAux_zero] at hx
    exact absurd hx (List.not_mem_nil x)
  | succ f ih =>
    intro name vis x hx
    by_cases hv : name ∈ vis
    · rw [resolveAux_mem f hv] at hx
      exact absurd hx (List.not_mem_nil x)
    · match hnm : lookupPkg repo name with
      | none =>
        rw [resolveAux_notfound f hv hnm] at hx
        exact absurd hx (List.not_mem_nil x)
      | some info =>
        rw [resolveAux_found f hv hnm] at hx
        exact resolveGo_out_none_of f ih info.dependencies (name :: vis) x hx

/-! ### Dependency-before-dependent order on acyclic graphs -/

lemma ordered_nil {repo : Repo} {inst : List (String × PkgRec)}
    {pre : List String} : Ordered repo inst pre [] :=
  trivial

lemma ordered_cons {repo : Repo} {inst : List (String × PkgRec)}
    {pre : List String} {x : String} {l : List String} :
    Ordered repo inst pre (x :: l) ↔
      Closed repo inst pre x ∧ Ordered repo inst (pre ++ [x]) l :=
  Iff.rfl

lemma closed_mono {repo : Repo} {inst : List (String × PkgRec)}
    {pre pre' : List String} {x : String} (h : pre ⊆ pre')
    (hc : Closed repo inst pre x) : Closed repo inst pre' x :=
  fun m hm d hd hdn => h (hc m hm d hd hdn)

lemma ordered_mono {repo : Repo} {inst : List (String × PkgRec)} :
    ∀ {l pre pre' : List String}, pre ⊆ pre' → Ordered repo inst pre l →
      Ordered repo inst pre' l := by
  intro l
  induction l with
  | nil => intro pre pre' h ho; exact ordered_nil
  | cons x rest ih =>
    intro pre pre' h ho
    rcases ordered_cons.mp ho with ⟨h1, h2⟩
    refine ordered_cons.mpr ⟨closed_mono h h1, ih ?_ h2⟩
    exact List.append_subset.mpr
      ⟨h.trans (List.subset_append_left _ _), List.subset_append_right _ _⟩

lemma ordered_append {repo : Repo} {inst : List (String × PkgRec)} :
    ∀ {l1 l2 pre : List String}, Ordered repo inst pre l1 →
      Ordered repo inst (pre ++ l1) l2 → Ordered repo inst pre (l1 ++ l2) := by
  intro l1
  induction l1 with
  | nil => intro l2 pre h1 h2; simpa using h2
  | cons x rest ih =>
    intro l2 pre h1 h2
    rcases ordered_cons.mp h1 with ⟨hc, hr⟩
    refine ordered_cons.mpr ⟨hc, ih hr ?_⟩
    have he : pre ++ x :: rest = (pre ++ [x]) ++ rest := by simp
    rw [he] at h2
    exact h2

lemma rankOk_lt {repo : Repo} {inst : List (String × PkgRec)} {rk : String → Nat}
    {x d : String} {m : Manifest} (hrk : RankOk repo inst rk)
    (hm : lookupPkg repo x = some m) (hd : d ∈ m.dependencies)
    (hn : alookup inst d = none) : rk d < rk x :=
  hrk (x, m) (alookup_mem hm) d hd hn

lemma resolveGo_ordered_of {repo : Repo} {inst : List (String × PkgRec)}
    {rk : String → Nat} (hrk : RankOk repo inst rk) (fuel : Nat)
    (hA : ∀ name vis pre, (unvisited repo vis).card < fuel →
      (∀ z ∈ vis, Closed repo inst pre z ∨ rk name ≤ rk z) →
      Ordered repo inst pre (resolveAux repo inst fuel name vis).out ∧
      (∀ z ∈ (resolveAux repo inst fuel name vis).vis,
        Closed repo inst (pre ++ (resolveAux repo inst fuel name vis).out) z ∨
        (z ∈ vis ∧ rk name ≤ rk z))) :
    ∀ deps vis pre (owner : String) (m : Manifest),
      lookupPkg repo owner = some m → (∀ d ∈ deps, d ∈ m.dependencies) →
      (unvisited repo vis).card < fuel →
      (∀ z ∈ vis, Closed repo inst pre z ∨ rk owner ≤ rk z) →
      Ordered repo inst pre (resolveGo repo inst fuel deps vis).out ∧
      (∀ z ∈ (resolveGo repo inst fuel deps vis).vis,
        Closed repo inst (pre ++ (resolveGo repo inst fuel deps vis).out) z ∨
        (z ∈ vis ∧ rk owner ≤ rk z)) := by
  intro deps
  induction deps with
  | nil =>
    intro vis pre owner m hm hsub hc hvis
    rw [resolveGo_nil]
    refine ⟨ordered_nil, fun z hz => ?_⟩
    rcases hvis z hz with h | h
    · exact Or.inl (by simpa using h)
    · exact Or.inr ⟨hz, h⟩
  | cons dep rest ih =>
    intro vis pre owner m hm hsub hc hvis
    by_cases hi : (alookup inst dep).isSome
    · rw [resolveGo_skip fuel rest vis hi]
      exact ih vis pre owner m hm (fun d hd => hsub d (List.mem_cons_of_mem _ hd))
        hc hvis
    · rw [Option.not_isSome_iff_eq_none] at hi
      have hlt : rk dep < rk owner :=
        rankOk_lt hrk hm (hsub dep (List.mem_cons_self _ _)) hi
      have hvisA : ∀ z ∈ vis, Closed repo inst pre z ∨ rk dep ≤ rk z := by
        intro z hz
        rcases hvis z hz with h | h
        · exact Or.inl h
        · exact Or.inr (le_of_lt (lt_of_lt_of_le hlt h))
      obtain ⟨O1, Z1⟩ := hA dep vis pre hc hvisA
      have hfpos : 0 < fuel := Nat.pos_of_ne_zero (fun h0 => by
        rw [h0] at hc; exact absurd hc (Nat.not_lt_zero _))
      have hClosedDep : Closed repo inst
          (pre ++ (resolveAux repo inst fuel dep vis).out) dep := by
        by_cases hdv : dep ∈ vis
        · rcases hvis dep hdv with h | h
          · exact closed_mono (List.subset_append_left _ _) h
          · exact absurd h (not_le.mpr hlt)
        · rcases Z1 dep (resolveAux_self_mem_vis hfpos) with h | h
          · exact h
          · exact absurd h.1 hdv
      have hc1 : (unvisited repo (resolveAux repo inst fuel dep vis).vis).card < fuel :=
        lt_of_le_of_lt (unvisited_anti resolveAux_vis_subset) hc
      have hvis2 : ∀ z ∈ (resolveAux repo inst fuel dep vis).vis,
          Closed repo inst
            ((pre ++ (resolveAux repo inst fuel dep vis).out) ++ [dep]) z ∨
          rk owner ≤ rk z := by
        intro z hz
        rcases Z1 z hz with h | h
        · exact Or.inl (closed_mono (List.subset_append_left _ _) h)
        · rcases hvis z h.1 with h2 | h2
          · exact Or.inl (closed_mono ((List.subset_append_left _ _).trans
              (List.subset_append_left _ _)) h2)
          · exact Or.inr h2
      have hvis2' : ∀ z ∈ (resolveAux repo inst fuel dep vis).vis,
          Closed repo inst
            ((pre ++ (resolveAux repo inst fuel dep vis).out) ++ [dep]) z ∨
          (z ∈ (resolveAux repo inst fuel dep vis).vis ∧ rk owner ≤ rk z) := by
        intro z hz
        rcases hvis2 z hz with h | h
        · exact Or.inl h
        · exact Or.inr ⟨hz, h⟩
      have hvis2'' : ∀ z ∈ (resolveAux repo inst fuel dep vis).vis,
          Closed repo inst
            ((pre ++ (resolveAux repo inst fuel dep vis).out) ++ [dep]) z ∨
          rk owner ≤ rk z := hvis2
      obtain ⟨O2, Z2⟩ := ih (resolveAux repo inst fuel dep vis).vis
        ((pre ++ (resolveAux repo inst fuel dep vis).out) ++ [dep]) owner m hm
        (fun d hd => hsub d (List.mem_cons_of_mem _ hd)) hc1 hvis2''
      rw [resolveGo_cons fuel rest vis hi]
      constructor
      · exact ordered_append O1 (ordered_cons.mpr ⟨hClosedDep, O2⟩)
      · intro z hz
        have hlisteq : ((pre ++ (resolveAux repo inst fuel dep vis).out) ++ [dep]) ++
            (resolveGo repo inst fuel rest
              (resolveAux repo inst fuel dep vis).vis).out =
            pre ++ ((resolveAux repo inst fuel dep vis).out ++ dep ::
              (resolveGo repo inst fuel rest
                (resolveAux repo inst fuel dep vis).vis).out) := by
          simp
        rcases Z2 z hz with h | h
        · rw [hlisteq] at h
          exact Or.inl h
        · rcases Z1 z h.1 with h2 | h2
          · refine Or.inl (closed_mono ?_ h2)
            intro a ha
            simp only [List.mem_append, List.mem_cons] at ha ⊢
            tauto
          · exact Or.inr ⟨h2.1, h.2⟩

lemma resolveAux_ordered {repo : Repo} {inst : List (String × PkgRec)}
    {rk : String → Nat} (hrk : RankOk repo inst rk) :
    ∀ fuel name vis pre, (unvisited repo vis).card < fuel →
      (∀ z ∈ vis, Closed repo inst pre z ∨ rk name ≤ rk z) →
      Ordered repo inst pre (resolveAux repo inst fuel name vis).out ∧
      (∀ z ∈ (resolveAux repo inst fuel name vis).vis,
        Closed repo inst (pre ++ (resolveAux repo inst fuel name vis).out) z ∨
        (z ∈ vis ∧ rk name ≤ rk z)) := by
  intro fuel
  induction fuel with
  | zero => intro name vis pre hc; exact absurd hc (Nat.not_lt_zero _)
  | succ f ih =>
    intro name vis pre hc hvis
    by_cases hv : name ∈ vis
    · rw [resolveAux_mem f hv]
      refine ⟨ordered_nil, fun z hz => ?_⟩
      rcases hvis z hz with h | h
      · exact Or.inl (by simpa using h)
      · exact Or.inr ⟨hz, h⟩
    · match hnm : lookupPkg repo name with
      | none =>
        rw [resolveAux_notfound f hv hnm]
        refine ⟨ordered_nil, fun z hz => ?_⟩
        rcases List.mem_cons.mp hz with rfl | hz2
        · exact Or.inl (fun m hm => by rw [hm] at hnm; exact absurd hnm (by simp))
        · rcases hvis z hz2 with h | h
          · exact Or.inl (by simpa using h)
          · exact Or.inr ⟨hz2, h⟩
      | some info =>
        have hc1 : (unvisited repo (name :: vis)).card < f := by
          have := unvisited_cons_lt hnm hv
          omega
        have hvisG : ∀ z ∈ name :: vis,
            Closed repo inst pre z ∨ rk name ≤ rk z := by
          intro z hz
          rcases List.mem_cons.mp hz with rfl | hz2
          · exact Or.inr (le_refl _)
          · exact hvis z hz2
        obtain ⟨OG, ZG⟩ := resolveGo_ordered_of hrk f ih info.dependencies
          (name :: vis) pre name info hnm (fun d hd => hd) hc1 hvisG
        rw [resolveAux_found f hv hnm]
        refine ⟨OG, fun z hz => ?_⟩
        rcases ZG z hz with h | h
        · exact Or.inl h
        · rcases List.mem_cons.mp h.1 with rfl | hz2
          · refine Or.inl (fun m hm d hd hdn => ?_)
            have hminfo : m = info := Option.some.inj (hm ▸ hnm)
            rw [hminfo] at hd
            exact List.mem_append_right _
              (resolveGo_out_complete f info.dependencies (z :: vis) d hd hdn)
          · exact Or.inr ⟨hz2, h.2⟩

/-- On an acyclic not-installed dependency graph (witnessed by a rank
function), the resolver output is in dependency-before-dependent order. -/
lemma resolveTop_ordered {repo : Repo} {inst : List (String × PkgRec)}
    {rk : String → Nat} (hrk : RankOk repo inst rk) (t : String) :
    Ordered repo inst [] (resolveTop repo inst t).out :=
  (resolveAux_ordered hrk (repo.length + 1) t [] []
    (Nat.lt_succ_of_le (unvisited_card_le repo []))
    (fun z hz => absurd hz (List.not_mem_nil z))).1

/-! ### Association lists with unique keys -/

lemma alookup_cons {β : Type} (k' : String) (v' : β) (rest : List (String × β))
    (k : String) :
    alookup ((k', v') :: rest) k = if k' = k then some v' else alookup rest k := by
  simp [alookup]

lemma aset_cons {β : Type} (k' : String) (v' : β) (rest : List (String × β))
    (k : String) (v : β) :
    aset ((k', v') :: rest) k v =
      if k' = k then (k, v) :: rest else (k', v') :: aset rest k v := by
  simp [aset]

lemma aerase_cons {β : Type} (k' : String) (v' : β) (rest : List (String × β))
    (k : String) :
    aerase ((k', v') :: rest) k =
      if k' = k then rest else (k', v') :: aerase rest k := by
  simp [aerase]

lemma alookup_eq_none {β : Type} {l : List (String × β)} {k : String}
    (h : k ∉ l.map Prod.fst) : alookup l k = none := by
  induction l with
  | nil => rfl
  | cons e rest ih =>
    obtain ⟨k', v'⟩ := e
    simp only [List.map_cons, List.mem_cons, not_or] at h
    rw [alookup_cons, if_neg (fun he => h.1 he.symm)]
    exact ih h.2

lemma keys_aset_subset {β : Type} (l : List (String × β)) (k : String) (v : β) :
    ∀ x ∈ (aset l k v).map Prod.fst, x = k ∨ x ∈ l.map Prod.fst := by
  induction l with
  | nil =>
    intro x hx
    simp [aset] at hx
    exact Or.inl hx
  | cons e rest ih =>
    obtain ⟨k', v'⟩ := e
    intro x hx
    rw [aset_cons] at hx
    by_cases hk : k' = k
    · rw [if_pos hk] at hx
      simp only [List.map_cons, List.mem_cons] at hx
      rcases hx with rfl | hx
      · exact Or.inl rfl
      · exact Or.inr (List.mem_cons_of_mem _ hx)
    · rw [if_neg hk] at hx
      simp only [List.map_cons, List.mem_cons] at hx
      rcases hx with rfl | hx
      · exact Or.inr (List.mem_cons_self _ _)
      · rcases ih x hx with h | h
        · exact Or.inl h
        · exact Or.inr (List.mem_cons_of_mem _ h)

lemma keysNodup_aset {β : Type} {l : List (String × β)} {k : String} {v : β}
    (h : keysNodup l) : keysNodup (aset l k v) := by
  induction l with
  | nil => simp [keysNodup, aset]
  | cons e rest ih =>
    obtain ⟨k', v'⟩ := e
    unfold keysNodup at h ⊢
    simp only [List.map_cons, List.nodup_cons] at h
    rw [aset_cons]
    by_cases hk : k' = k
    · rw [if_pos hk]
      simp only [List.map_cons, List.nodup_cons]
      refine ⟨fun hx => h.1 ?_, h.2⟩
      rw [hk]; exact hx
    · rw [if_neg hk]
      simp only [List.map_cons, List.nodup_cons]
      refine ⟨fun hx => ?_, ih h.2⟩
      rcases keys_aset_subset rest k v k' hx with he | he
      · exact hk he
      · exact h.1 he

lemma keys_aerase_sublist {β : Type} (l : List (String × β)) (k : String) :
    ((aerase l k).map Prod.fst).Sublist (l.map Prod.fst) := by
  induction l with
  | nil => simp [aerase]
  | cons e rest ih =>
    obtain ⟨k', v'⟩ := e
    rw [aerase_cons]
    by_cases hk : k' = k
    · rw [if_pos hk]
      simp only [List.map_cons]
      exact List.sublist_cons_of_sublist _ (List.Sublist.refl _)
    · rw [if_neg hk]
      simp only [List.map_cons]
      exact ih.cons₂ _

lemma keysNodup_aerase {β : Type} {l : List (String × β)} {k : String}
    (h : keysNodup l) : keysNodup (aerase l k) :=
  (keys_aerase_sublist l k).nodup h

lemma alookup_aerase_self {β : Type} {l : List (String × β)} {k : String}
    (h : keysNodup l) : alookup (aerase l k) k = none := by
  induction l with
  | nil => rfl
  | cons e rest ih =>
    obtain ⟨k', v'⟩ := e
    unfold keysNodup at h
    simp only [List.map_cons, List.nodup_cons] at h
    rw [aerase_cons]
    by_cases hk : k' = k
    · rw [if_pos hk]
      refine alookup_eq_none (fun hx => h.1 ?_)
      rw [hk]; exact hx
    · rw [if_neg hk, alookup_cons, if_neg hk]
      exact ih h.2

/-! ### Install: unfolding equations -/

section InstallEq

variable {env : Env} {st : St} {name : String} {force : Bool} {info : Manifest}

lemma install_zero (name : String) (force : Bool) (st : St) :
    install env 0 name force st = st := by
  simp [install]

lemma install_already (fuel : Nat)
    (h : ((alookup st.installed name).isSome && !force) = true) :
    install env (fuel + 1) name force st =
      { st with trace := st.trace ++ [.alreadyInstalledMsg name] } := by
  simp [install, h]

lemma install_nofetch (fuel : Nat)
    (h : ((alookup st.installed name).isSome && !force) = false)
    (hm : lookupPkg env.repo name = none) :
    install env (fuel + 1) name force st =
      { st with trace := st.trace ++
          [.installingMsg name, .fetchManifest name false, .errorMsg name] } := by
  simp [install, h, hm]

lemma install_fetch (fuel : Nat)
    (h : ((alookup st.installed name).isSome && !force) = false)
    (hm : lookupPkg env.repo name = some info) :
    install env (fuel + 1) name force st =
      installAfterDeps env name force info
        (installDeps env fuel name (resolveTop env.repo st.installed name).out
          { st with trace := st.trace ++
              [.installingMsg name, .fetchManifest name true] ++
              (resolveTop env.repo st.installed name).tr }) := by
  simp [install, installDeps, h, hm]

lemma installDeps_nil (fuel : Nat) (name : String) (st : St) :
    installDeps env fuel name [] st = st := by
  simp [installDeps, installDepsF]

lemma installDeps_self (fuel : Nat) {dep : String} (rest : List String)
    (h : dep = name) :
    installDeps env fuel name (dep :: rest) st =
      installDeps env fuel name rest st := by
  simp [installDeps, installDepsF, h]

lemma installDeps_cons (fuel : Nat) {dep : String} (rest : List String)
    (h : ¬dep = name) :
    installDeps env fuel name (dep :: rest) st =
      installDeps env fuel name rest
        (install env fuel dep false
          { st with trace := st.trace ++ [.installingDepMsg dep] }) := by
  simp [installDeps, installDepsF, h]

end InstallEq

/-! ### Branch equations for the download/commit block -/

section FinishEq

variable {env : Env} {st : St} {name : String} {force : Bool} {info : Manifest}

lemma installFinish_fail
    (h : (info.files.isEmpty || !(info.files.all (env.fileOk name))) = true) :
    installFinish env name info st =
      { st with dirs := aerase st.dirs name,
                trace := st.trace ++ dlTrace env name info.files ++
                  [.installErrorMsg name] } := by
  simp [installFinish, h]

lemma installFinish_nohook
    (h1 : (info.files.isEmpty || !(info.files.all (env.fileOk name))) = false)
    (h2 : "post_install.py" ∉ info.files) :
    installFinish env name info st =
      installCommit name info
        { st with dirs := aset st.dirs name info.files,
                  trace := st.trace ++ dlTrace env name info.files } := by
  simp [installFinish, h1, h2]

lemma installFinish_hook_spawn
    (h1 : (info.files.isEmpty || !(info.files.all (env.fileOk name))) = false)
    (h2 : "post_install.py" ∈ info.files)
    (hh : env.hook name "post_install.py" = .spawnFail) :
    installFinish env name info st =
      { st with dirs := aerase (aset st.dirs name info.files) name,
                trace := st.trace ++ dlTrace env name info.files ++
                  [.postInstallRun name, .installErrorMsg name] } := by
  simp [installFinish, h1, h2, hh]

lemma installFinish_hook_exit
    (h1 : (info.files.isEmpty || !(info.files.all (env.fileOk name))) = false)
    (h2 : "post_install.py" ∈ info.files)
    (hh : env.hook name "post_install.py" = .exitFail) :
    installFinish env name info st =
      installCommit name info
        { st with dirs := aset st.dirs name info.files,
                  trace := st.trace ++ dlTrace env name info.files ++
                    [.postInstallRun name, .hookWarn name "post_install.py"] } := by
  simp [installFinish, h1, h2, hh]

lemma installFinish_hook_ok
    (h1 : (info.files.isEmpty || !(info.files.all (env.fileOk name))) = false)
    (h2 : "post_install.py" ∈ info.files)
    (hh : env.hook name "post_install.py" = .ok) :
    installFinish env name info st =
      installCommit name info
        { st with dirs := aset st.dirs name info.files,
                  trace := st.trace ++ dlTrace env name info.files ++
                    [.postInstallRun name] } := by
  simp [installFinish, h1, h2, hh]

lemma installAfterDeps_direxists
    (h : ((alookup st.dirs name).isSome && !force) = true) :
    installAfterDeps env name force info st =
      { st with trace := st.trace ++ [.dirExistsMsg name] } := by
  simp [installAfterDeps, h]

lemma installAfterDeps_go
    (h : ((alookup st.dirs name).isSome && !force) = false) :
    installAfterDeps env name force info st = installFinish env name info st := by
  simp [installAfterDeps, h]

lemma dlFail_of_broken
    (hbr : info.files = [] ∨ ∃ f ∈ info.files, env.fileOk name f = false) :
    (info.files.isEmpty || !(info.files.all (env.fileOk name))) = true := by
  rcases hbr with h | ⟨f, hf, hok⟩
  · simp [h]
  · have hall : (info.files.all (env.fileOk name)) = false := by
      by_contra hcon
      rw [Bool.not_eq_false, List.all_eq_true] at hcon
      have := hcon f hf
      rw [hok] at this
      exact Bool.false_ne_true this
    simp [hall]

end FinishEq

/-! ### A package whose download always fails is never touched -/

lemma presP_refl (p : String) (st : St) : PresP p st st :=
  ⟨rfl, Or.inl rfl, Or.inl rfl⟩

lemma presP_trace (p : String) (st : St) (t : List Event) :
    PresP p st { st with trace := t } :=
  ⟨rfl, Or.inl rfl, Or.inl rfl⟩

lemma presP_trans {p : String} {st st' st'' : St}
    (h : PresP p st st') (g : PresP p st' st'') : PresP p st st'' := by
  obtain ⟨h1, h2, h3⟩ := h
  obtain ⟨g1, g2, g3⟩ := g
  refine ⟨g1.trans h1, ?_, ?_⟩
  · rcases g2 with g | g
    · rcases h2 with h | h
      · exact Or.inl (g.trans h)
      · exact Or.inr (g.trans h)
    · exact Or.inr (g.trans h1)
  · rcases g3 with g | g
    · rcases h3 with h | h
      · exact Or.inl (g.trans h)
      · exact Or.inr (g.trans h)
    · exact Or.inr g

lemma installCommit_presP {name p : String} (info : Manifest) (st : St)
    (hne : name ≠ p) : PresP p st (installCommit name info st) := by
  unfold installCommit
  exact ⟨alookup_aset_ne _ _ hne, Or.inr (alookup_aset_ne _ _ hne), Or.inl rfl⟩

lemma installFinish_pres {env : Env} {st : St} {name p : String} {info : Manifest}
    (hne : name ≠ p) (hd : keysNodup st.dirs) :
    PresP p st (installFinish env name info st) ∧
      keysNodup (installFinish env name info st).dirs := by
  by_cases h1 : (info.files.isEmpty || !(info.files.all (env.fileOk name))) = true
  · rw [installFinish_fail h1]
    exact ⟨⟨rfl, Or.inl rfl, Or.inl (alookup_aerase_ne _ hne)⟩, keysNodup_aerase hd⟩
  · rw [Bool.not_eq_true] at h1
    by_cases h2 : "post_install.py" ∈ info.files
    · cases hh : env.hook name "post_install.py" with
      | spawnFail =>
        rw [installFinish_hook_spawn h1 h2 hh]
        refine ⟨⟨rfl, Or.inl rfl, Or.inl ?_⟩, keysNodup_aerase (keysNodup_aset hd)⟩
        rw [alookup_aerase_ne _ hne, alookup_aset_ne _ _ hne]
      | exitFail =>
        rw [installFinish_hook_exit h1 h2 hh]
        refine ⟨presP_trans ?_ (installCommit_presP _ _ hne), keysNodup_aset hd⟩
        exact ⟨rfl, Or.inl rfl, Or.inl (alookup_aset_ne _ _ hne)⟩
      | ok =>
        rw [installFinish_hook_ok h1 h2 hh]
        refine ⟨presP_trans ?_ (installCommit_presP _ _ hne), keysNodup_aset hd⟩
        exact ⟨rfl, Or.inl rfl, Or.inl (alookup_aset_ne _ _ hne)⟩
    · rw [installFinish_nohook h1 h2]
      refine ⟨presP_trans ?_ (installCommit_presP _ _ hne), keysNodup_aset hd⟩
      exact ⟨rfl, Or.inl rfl, Or.inl (alookup_aset_ne _ _ hne)⟩

lemma installFinish_pres_self {env : Env} {st : St} {p : String} {info : Manifest}
    (hbr : info.files = [] ∨ ∃ f ∈ info.files, env.fileOk p f = false)
    (hd : keysNodup st.dirs) :
    PresP p st (installFinish env p info st) ∧
      keysNodup (installFinish env p info st).dirs := by
  rw [installFinish_fail (dlFail_of_broken hbr)]
  exact ⟨⟨rfl, Or.inl rfl, Or.inr (alookup_aerase_self hd)⟩, keysNodup_aerase hd⟩

lemma installAfterDeps_pres (env : Env) (st : St) {name p : String}
    (info : Manifest) (force : Bool)
    (hne : name ≠ p) (hd : keysNodup st.dirs) :
    PresP p st (installAfterDeps env name force info st) ∧
      keysNodup (installAfterDeps env name force info st).dirs := by
  by_cases h : ((alookup st.dirs name).isSome && !force) = true
  · rw [installAfterDeps_direxists h]
    exact ⟨presP_trace p st _, hd⟩
  · rw [Bool.not_eq_true] at h
    rw [installAfterDeps_go h]
    exact installFinish_pres hne hd

lemma installAfterDeps_pres_self (env : Env) (st : St) {p : String}
    (info : Manifest) (force : Bool)
    (hbr : info.files = [] ∨ ∃ f ∈ info.files, env.fileOk p f = false)
    (hd : keysNodup st.dirs) :
    PresP p st (installAfterDeps env p force info st) ∧
      keysNodup (installAfterDeps env p force info st).dirs := by
  by_cases h : ((alookup st.dirs p).isSome && !force) = true
  · rw [installAfterDeps_direxists h]
    exact ⟨presP_trace p st _, hd⟩
  · rw [Bool.not_eq_true] at h
    rw [installAfterDeps_go h]
    exact installFinish_pres_self hbr hd

lemma install_pres (env : Env) (p : String) (hbr : pBroken env p) :
    ∀ fuel name force st, keysNodup st.dirs →
      PresP p st (install env fuel name force st) ∧
        keysNodup (install env fuel name force st).dirs := by
  intro fuel
  induction fuel with
  | zero =>
    intro name force st hd
    rw [install_zero]
    exact ⟨presP_refl p st, hd⟩
  | succ f ih =>
    have hdeps : ∀ deps name st, keysNodup st.dirs →
        PresP p st (installDeps env f name deps st) ∧
          keysNodup (installDeps env f name deps st).dirs := by
      intro deps
      induction deps with
      | nil =>
        intro name st hd
        rw [installDeps_nil]
        exact ⟨presP_refl p st, hd⟩
      | cons dep rest ihd =>
        intro name st hd
        by_cases hdn : dep = name
        · rw [installDeps_self f rest hdn]
          exact ihd name st hd
        · rw [installDeps_cons f rest hdn]
          have h1 := ih dep false
            { st with trace := st.trace ++ [.installingDepMsg dep] } hd
          have h2 := ihd name _ h1.2
          exact ⟨presP_trans (presP_trans (presP_trace p st _) h1.1) h2.1, h2.2⟩
    intro name force st hd
    by_cases ha : ((alookup st.installed name).isSome && !force) = true
    · rw [install_already f ha]
      exact ⟨presP_trace p st _, hd⟩
    · rw [Bool.not_eq_true] at ha
      match hm : lookupPkg env.repo name with
      | none =>
        rw [install_nofetch f ha hm]
        exact ⟨presP_trace p st _, hd⟩
      | some info =>
        rw [install_fetch f ha hm]
        have hD := hdeps (resolveTop env.repo st.installed name).out name
          { st with trace := st.trace ++
              [.installingMsg name, .fetchManifest name true] ++
              (resolveTop env.repo st.installed name).tr } hd
        by_cases hnp : name = p
        · subst hnp
          have hA := installAfterDeps_pres_self env
            (installDeps env f name (resolveTop env.repo st.installed name).out
              { st with trace := st.trace ++
                  [.installingMsg name, .fetchManifest name true] ++
                  (resolveTop env.repo st.installed name).tr })
            info force (hbr info hm) hD.2
          exact ⟨presP_trans (presP_trans (presP_trace _ st _) hD.1) hA.1, hA.2⟩
        · have hA := installAfterDeps_pres env
            (installDeps env f name (resolveTop env.repo st.installed name).out
              { st with trace := st.trace ++
                  [.installingMsg name, .fetchManifest name true] ++
                  (resolveTop env.repo st.installed name).tr })
            info force hnp hD.2
          exact ⟨presP_trans (presP_trans (presP_trace p st _) hD.1) hA.1, hA.2⟩

/-! ### Trace events already emitted do not influence later behaviour -/

lemma installCommit_addTrace {name : String} {info : Manifest} (t : List Event)
    (st : St) :
    installCommit name info (addTrace t st) =
      addTrace t (installCommit name info st) := by
  simp [installCommit, addTrace, List.append_assoc]

lemma installFinish_addTrace {env : Env} {name : String} {info : Manifest}
    (t : List Event) (st : St) :
    installFinish env name info (addTrace t st) =
      addTrace t (installFinish env name info st) := by
  by_cases h1 : (info.files.isEmpty || !(info.files.all (env.fileOk name))) = true
  · simp [installFinish, addTrace, h1, List.append_assoc]
  · rw [Bool.not_eq_true] at h1
    by_cases h2 : "post_install.py" ∈ info.files
    · cases hh : env.hook name "post_install.py" with
      | spawnFail =>
        simp [installFinish, installCommit, addTrace, h1, h2, hh,
          List.append_assoc]
      | exitFail =>
        simp [installFinish, installCommit, addTrace, h1, h2, hh,
          List.append_assoc]
      | ok =>
        simp [installFinish, installCommit, addTrace, h1, h2, hh,
          List.append_assoc]
    · simp [installFinish, installCommit, addTrace, h1, h2, List.append_assoc]

lemma installAfterDeps_addTrace {env : Env} {name : String} {force : Bool}
    {info : Manifest} (t : List Event) (st : St) :
    installAfterDeps env name force info (addTrace t st) =
      addTrace t (installAfterDeps env name force info st) := by
  by_cases h : ((alookup st.dirs name).isSome && !force) = true
  · have h2 : ((alookup (addTrace t st).dirs name).isSome && !force) = true := h
    rw [installAfterDeps_direxists h2, installAfterDeps_direxists h]
    simp [addTrace, List.append_assoc]
  · rw [Bool.not_eq_true] at h
    have h2 : ((alookup (addTrace t st).dirs name).isSome && !force) = false := h
    rw [installAfterDeps_go h2, installAfterDeps_go h]
    exact installFinish_addTrace t st

lemma install_addTrace {env : Env} :
    ∀ fuel name force st t,
      install env fuel name force (addTrace t st) =
        addTrace t (install env fuel name force st) := by
  intro fuel
  induction fuel with
  | zero =>
    intro name force st t
    rw [install_zero, install_zero]
  | succ f ih =>
    have hdeps : ∀ deps name st t,
        installDeps env f name deps (addTrace t st) =
          addTrace t (installDeps env f name deps st) := by
      intro deps
      induction deps with
      | nil => intro name st t; rw [installDeps_nil, installDeps_nil]
      | cons dep rest ihd =>
        intro name st t
        by_cases hdn : dep = name
        · rw [installDeps_self f rest hdn, installDeps_self f rest hdn]
          exact ihd name st t
        · rw [installDeps_cons f rest hdn, installDeps_cons f rest hdn]
          have he : ({ (addTrace t st) with trace := (addTrace t st).trace ++
              [.installingDepMsg dep] } : St) =
            addTrace t { st with trace := st.trace ++ [.installingDepMsg dep] } := by
            simp [addTrace, List.append_assoc]
          rw [he, ih, ihd]
    intro name force st t
    by_cases ha : ((alookup st.installed name).isSome && !force) = true
    · have ha2 : ((alookup (addTrace t st).installed name).isSome && !force) = true := ha
      rw [install_already f ha2, install_already f ha]
      simp [addTrace, List.append_assoc]
    · rw [Bool.not_eq_true] at ha
      have ha2 : ((alookup (addTrace t st).installed name).isSome && !force) = false := ha
      match hm : lookupPkg env.repo name with
      | none =>
        rw [install_nofetch f ha2 hm, install_nofetch f ha hm]
        simp [addTrace, List.append_assoc]
      | some info =>
        have hr1 : (addTrace t st).installed = st.installed := rfl
        have hr2 : (addTrace t st).dirs = st.dirs := rfl
        have hr3 : (addTrace t st).saved = st.saved := rfl
        have hr4 : (addTrace t st).trace = t ++ st.trace := rfl
        rw [install_fetch f ha2 hm, install_fetch f ha hm, hr1, hr2, hr3, hr4]
        have he : ({ st with trace := (t ++ st.trace) ++
            [.installingMsg name, .fetchManifest name true] ++
            (resolveTop env.repo st.installed name).tr } : St) =
          addTrace t { st with trace := st.trace ++
            [.installingMsg name, .fetchManifest name true] ++
            (resolveTop env.repo st.installed name).tr } := by
          simp [addTrace, List.append_assoc]
        rw [he, hdeps, installAfterDeps_addTrace]

lemma stCoreEq_refl (s : St) : StCoreEq s s := ⟨rfl, rfl, rfl⟩

lemma stCoreEq_trace (st : St) (t : List Event) :
    StCoreEq { st with trace := t } st := ⟨rfl, rfl, rfl⟩

lemma install_coreEq {env : Env} {fuel : Nat} {n : String} {f : Bool}
    {s s' : St} (h : StCoreEq s s') :
    StCoreEq (install env fuel n f s) (install env fuel n f s') := by
  obtain ⟨h1, h2, h3⟩ := h
  have e1 : s = addTrace s.trace ⟨s'.installed, s'.dirs, s'.saved, []⟩ := by
    obtain ⟨si, sd, sv, stt⟩ := s
    simp only at h1 h2 h3
    simp [addTrace, h1, h2, h3]
  have e2 : s' = addTrace s'.trace ⟨s'.installed, s'.dirs, s'.saved, []⟩ := by
    obtain ⟨si, sd, sv, stt⟩ := s'
    simp [addTrace]
  rw [e1, e2, install_addTrace, install_addTrace]
  exact ⟨rfl, rfl, rfl⟩

lemma installDeps_pres (env : Env) (p : String) (hbr : pBroken env p) :
    ∀ fuel deps name st, keysNodup st.dirs →
      PresP p st (installDeps env fuel name deps st) ∧
        keysNodup (installDeps env fuel name deps st).dirs := by
  intro fuel deps
  induction deps with
  | nil =>
    intro name st hd
    rw [installDeps_nil]
    exact ⟨presP_refl p st, hd⟩
  | cons dep rest ihd =>
    intro name st hd
    by_cases hdn : dep = name
    · rw [installDeps_self fuel rest hdn]
      exact ihd name st hd
    · rw [installDeps_cons fuel rest hdn]
      have h1 := install_pres env p hbr fuel dep false
        { st with trace := st.trace ++ [.installingDepMsg dep] } hd
      have h2 := ihd name _ h1.2
      exact ⟨presP_trans (presP_trans (presP_trace p st _) h1.1) h2.1, h2.2⟩

lemma foldl_update_coreEq {env : Env} {fuel : Nat} :
    ∀ (pkgs : List String) (s s' : St), StCoreEq s s' →
      StCoreEq
        (pkgs.foldl (fun a p => install env fuel p true
          { a with trace := a.trace ++ [.updatingMsg p] }) s)
        (pkgs.foldl (fun a p => install env fuel p true a) s') := by
  intro pkgs
  induction pkgs with
  | nil => intro s s' h; simpa using h
  | cons p rest ih =>
    intro s s' h
    simp only [List.foldl_cons]
    apply ih
    exact install_coreEq ⟨h.1, h.2.1, h.2.2⟩

/-! ### Uninstall branch equations -/

lemma uninstall_blocked {env : Env} {st : St} {p : String} {v : PkgRec}
    (hv : alookup st.installed p = some v)
    (hne : (st.installed.filter
      (fun e => e.2.dependencies.contains p)).map Prod.fst ≠ []) :
    uninstall env p st = { st with trace := st.trace ++
      [.blockedMsg p ((st.installed.filter
        (fun e => e.2.dependencies.contains p)).map Prod.fst)] } := by
  have h1 : (alookup st.installed p).isNone = false := by rw [hv]; rfl
  simp only [uninstall]
  rw [h1, if_neg Bool.false_ne_true, if_pos hne]

lemma uninstall_hook_exit {env : Env} {st : St} {p : String} {v : PkgRec}
    (hv : alookup st.installed p = some v)
    (hd0 : (st.installed.filter
      (fun e => e.2.dependencies.contains p)).map Prod.fst = [])
    (hpre : "pre_uninstall.py" ∈ (alookup st.dirs p).getD [])
    (hh : env.hook p "pre_uninstall.py" = .exitFail) :
    uninstall env p st = uninstallCommit p { st with trace := st.trace ++
      [.preUninstallRun p, .hookWarn p "pre_uninstall.py"] } := by
  have h1 : (alookup st.installed p).isNone = false := by rw [hv]; rfl
  simp only [uninstall]
  rw [h1, if_neg Bool.false_ne_true, hd0, if_neg (fun h => h rfl),
    if_pos hpre, hh]

/-! ## The claims -/

/-- C4: For every dependency graph, including cyclic ones (a package
that depends directly or transitively on the target), resolution
terminates and returns a finite list: the fuelled embedding of
`_resolve_dependencies` gives the same (finite) result for every fuel
larger than the number of store entries, because each package is added
to the visited set before its dependencies are traversed and a visited
package returns immediately, so the recursion can never need more
nesting than there are distinct packages.  `resolveTop` (the fuel the
rest of the model uses) therefore computes the limit value of the
unbounded Python recursion. -/
theorem C4_resolver_termination (repo : Repo) (inst : List (String × PkgRec))
    (name : String) (fuel fuel' : Nat)
    (h : repo.length < fuel) (h' : repo.length < fuel') :
    resolveAux repo inst fuel name [] = resolveAux repo inst fuel' name [] :=
  resolveAux_stab (lt_of_le_of_lt (unvisited_card_le repo []) h)
    (lt_of_le_of_lt (unvisited_card_le repo []) h')

/-- Witness for C4 on a store whose dependency graph is cyclic
(`a → b → a`, `b → c → b`). -/
theorem C4_resolver_termination_witness :
    exRepoCyc.length < 4 ∧ exRepoCyc.length < 9 ∧
      resolveAux exRepoCyc [] 4 "a" [] = resolveAux exRepoCyc [] 9 "a" [] :=
  ⟨by decide, by decide,
    C4_resolver_termination exRepoCyc [] "a" 4 9 (by decide) (by decide)⟩

/-- C1 counterexample: on the cyclic store `a → b`, `b → c, a`,
`c → b`, resolving `a` (with nothing installed) returns
`["b", "c", "a", "b"]`: the target `a` itself appears in the list, the
package `b` appears twice, and `b` (the head of the list) has the
not-yet-installed dependency `c` occurring only later — refuting
"excludes the target", "exactly once", and "every dependency before any
package that depends on it" as stated. -/
theorem C1_counterexample :
    (resolveTop exRepoCyc [] "a").out = ["b", "c", "a", "b"] ∧
    "a" ∈ (resolveTop exRepoCyc [] "a").out ∧
    (resolveTop exRepoCyc [] "a").out.count "b" = 2 ∧
    lookupPkg exRepoCyc "b" = some (mkM ["c", "a"] ["b.py"]) := by
  refine ⟨rfl, ?_, rfl, rfl⟩
  rw [show (resolveTop exRepoCyc [] "a").out = ["b", "c", "a", "b"] from rfl]
  decide

/-- C1 (amended): for every target package name and every set of
already-installed package names, the resolver returns an ordered list
that contains only packages not already installed; every transitive
dependency of the target that is not already installed appears in the
list at least once (a dependency shared by several paths may appear
more than once, and the target itself may appear when a dependency
cycle leads back to it — the install loop skips it); and whenever the
not-yet-installed dependency graph is acyclic (witnessed by a rank
function decreasing along dependency edges), every element's
not-yet-installed dependencies occur earlier in the list, so installing
the list in order never requires a not-yet-installed dependency. -/
theorem C1_amended (repo : Repo) (inst : List (String × PkgRec)) (t : String) :
    (∀ d, Reach repo inst t d → d ∈ (resolveTop repo inst t).out) ∧
    (∀ x ∈ (resolveTop repo inst t).out, alookup inst x = none) ∧
    (∀ rk : String → Nat, RankOk repo inst rk →
      Ordered repo inst [] (resolveTop repo inst t).out) :=
  ⟨fun d h => reach_mem_out h,
   fun x hx => resolveAux_out_none (repo.length + 1) t [] x hx,
   fun rk hrk => resolveTop_ordered hrk t⟩

/-- Witness for C1 (amended) on the diamond store: `d` is a transitive
dependency of `a` through both `b` and `c`, and the output is in
dependency-before-dependent order. -/
theorem C1_amended_witness :
    "d" ∈ (resolveTop exRepoDiamond [] "a").out ∧
    Ordered exRepoDiamond [] [] (resolveTop exRepoDiamond [] "a").out := by
  have hb : Reach exRepoDiamond [] "a" "b" :=
    Reach.base (rfl : lookupPkg exRepoDiamond "a" = some (mkM ["b", "c"] ["a.py"]))
      (by decide) rfl
  have hd : Reach exRepoDiamond [] "a" "d" :=
    Reach.step hb (rfl : lookupPkg exRepoDiamond "b" = some (mkM ["d"] ["b.py"]))
      (by decide) rfl
  exact ⟨(C1_amended exRepoDiamond [] "a").1 "d" hd,
    (C1_amended exRepoDiamond [] "a").2.2 exRank (by unfold RankOk; decide)⟩

/-- C9: If the persisted installed-state file exists but contains
unparsable JSON, `_load_installed_packages` returns the empty mapping
instead of failing, and the startup state is identical to the one a
missing file produces, so every subsequent operation behaves as if no
packages were installed. -/
theorem C9_corrupt_state_loads_empty :
    loadInstalledPackages (some none) = [] ∧
    ∀ dirs, startupSt (some none) dirs = startupSt none dirs :=
  ⟨rfl, fun dirs => rfl⟩

/-- C2: If any single file download fails during `Install(p, force=true)`
(and deterministically keeps failing for recursive attempts within the
same call), then after the call the installed-state entry for `p` is
exactly as it was before the call (unchanged on reinstall-failure,
absent on fresh-install-failure), the persisted entry for `p` is
unchanged, no record for `p` is created or updated, and `p`'s final
package directory is absent — never a mix of old and new files.  The
staging directory is a `tempfile.TemporaryDirectory` discarded with the
`with` block and has no residue in the state. -/
theorem C2_download_failure_preserves_package (env : Env) (p : String)
    (info : Manifest) (st : St) (fuel : Nat)
    (hm : lookupPkg env.repo p = some info)
    (hex : ∃ f ∈ info.files, env.fileOk p f = false)
    (hd : keysNodup st.dirs)
    (hsv : alookup st.saved p = alookup st.installed p) :
    alookup (install env (fuel + 1) p true st).installed p =
      alookup st.installed p ∧
    alookup (install env (fuel + 1) p true st).saved p = alookup st.saved p ∧
    alookup (install env (fuel + 1) p true st).dirs p = none := by
  have hbr : pBroken env p := by
    intro info' hm'
    rw [hm] at hm'
    have he : info' = info := (Option.some.inj hm').symm
    subst he
    exact Or.inr hex
  have ha : ((alookup st.installed p).isSome && !true) = false := by simp
  rw [install_fetch fuel ha hm]
  obtain ⟨hP, hN⟩ := installDeps_pres env p hbr fuel
    (resolveTop env.repo st.installed p).out p
    { st with trace := st.trace ++ [.installingMsg p, .fetchManifest p true] ++
        (resolveTop env.repo st.installed p).tr } hd
  have ha2 : ((alookup (installDeps env fuel p
      (resolveTop env.repo st.installed p).out
      { st with trace := st.trace ++ [.installingMsg p, .fetchManifest p true] ++
          (resolveTop env.repo st.installed p).tr }).dirs p).isSome && !true) =
      false := by simp
  rw [installAfterDeps_go ha2, installFinish_fail (dlFail_of_broken (Or.inr hex))]
  refine ⟨hP.1, ?_, alookup_aerase_self hN⟩
  rcases hP.2.1 with h | h
  · exact h
  · exact h.trans hsv.symm

/-- Witness for C2: the store has `a` with files `a.py` and `util.py`,
and the download of `util.py` fails. -/
theorem C2_download_failure_preserves_package_witness :
    lookupPkg envDlFail.repo "a" = some (mkM [] ["a.py", "util.py"]) ∧
    (∃ f ∈ (mkM [] ["a.py", "util.py"]).files,
      envDlFail.fileOk "a" f = false) ∧
    keysNodup st0.dirs ∧
    alookup st0.saved "a" = alookup st0.installed "a" ∧
    (alookup (install envDlFail 1 "a" true st0).installed "a" =
        alookup st0.installed "a" ∧
      alookup (install envDlFail 1 "a" true st0).saved "a" =
        alookup st0.saved "a" ∧
      alookup (install envDlFail 1 "a" true st0).dirs "a" = none) :=
  ⟨rfl, ⟨"util.py", by decide, rfl⟩, by unfold keysNodup st0; decide, rfl,
    C2_download_failure_preserves_package envDlFail "a"
      (mkM [] ["a.py", "util.py"]) st0 0 rfl ⟨"util.py", by decide, rfl⟩
      (by unfold keysNodup st0; decide) rfl⟩

/-- C5: `Install(p, force=false)` when `p` is already installed is a
no-op that only reports "already installed": the whole state — the
installed mapping, the directories, and the persisted file — is
unchanged, and the trace gains exactly that one console message, in
particular no network fetch (no `fetchManifest` and no `downloaded`
event) for `p` or anything else. -/
theorem C5_already_installed_noop (env : Env) (p : String) (st : St)
    (fuel : Nat) (hi : (alookup st.installed p).isSome = true) :
    install env (fuel + 1) p false st =
      { st with trace := st.trace ++ [.alreadyInstalledMsg p] } :=
  install_already fuel (by simp [hi])

/-- Witness for C5. -/
theorem C5_already_installed_noop_witness :
    (alookup stWithA.installed "a").isSome = true ∧
    install (envOk []) 1 "a" false stWithA =
      { stWithA with trace := stWithA.trace ++ [.alreadyInstalledMsg "a"] } :=
  ⟨rfl, C5_already_installed_noop (envOk []) "a" stWithA 0 rfl⟩

/-- C3: if `p` is installed and some installed package's recorded
dependencies contain `p`, `Uninstall(p)` only emits the error message
naming the dependents and mutates nothing: the installed mapping, the
directories and the persisted file are untouched and no pre-uninstall
hook event occurs. -/
theorem C3_uninstall_blocked_by_dependents (env : Env) (p : String) (st : St)
    (hi : (alookup st.installed p).isSome = true)
    (hdep : ∃ e ∈ st.installed, p ∈ e.2.dependencies) :
    uninstall env p st = { st with trace := st.trace ++
      [.blockedMsg p ((st.installed.filter
        (fun e => e.2.dependencies.contains p)).map Prod.fst)] } := by
  obtain ⟨v, hv⟩ := Option.isSome_iff_exists.mp hi
  obtain ⟨e, he, hp⟩ := hdep
  have hmem : e ∈ st.installed.filter (fun e => e.2.dependencies.contains p) :=
    List.mem_filter.mpr ⟨he, by simpa using hp⟩
  exact uninstall_blocked hv
    (List.ne_nil_of_mem (List.mem_map_of_mem Prod.fst hmem))

/-- Witness for C3: `b` depends on `a`, so uninstalling `a` is blocked. -/
theorem C3_uninstall_blocked_by_dependents_witness :
    (alookup stDep.installed "a").isSome = true ∧
    (∃ e ∈ stDep.installed, "a" ∈ e.2.dependencies) ∧
    uninstall (envOk []) "a" stDep = { stDep with trace := stDep.trace ++
      [.blockedMsg "a" ((stDep.installed.filter
        (fun e => e.2.dependencies.contains "a")).map Prod.fst)] } :=
  ⟨rfl, ⟨("b", ⟨"1.0.0", "", ["b.py"], ["a"]⟩), by decide, by decide⟩,
    C3_uninstall_blocked_by_dependents (envOk []) "a" stDep rfl
      ⟨("b", ⟨"1.0.0", "", ["b.py"], ["a"]⟩), by decide, by decide⟩⟩

/-- C10: the dependents scan in `uninstall` (lines 200-202) iterates
over every installed record including `p`'s own, so a package whose own
recorded dependency list contains its own name is always blocked: the
error names `p` itself among the dependents and nothing is mutated. -/
theorem C10_self_dependency_blocks_uninstall (env : Env) (p : String)
    (st : St) (r : PkgRec) (hv : alookup st.installed p = some r)
    (hp : p ∈ r.dependencies) :
    uninstall env p st = { st with trace := st.trace ++
      [.blockedMsg p ((st.installed.filter
        (fun e => e.2.dependencies.contains p)).map Prod.fst)] } ∧
    p ∈ (st.installed.filter
      (fun e => e.2.dependencies.contains p)).map Prod.fst := by
  have hmem : (p, r) ∈ st.installed.filter
      (fun e => e.2.dependencies.contains p) :=
    List.mem_filter.mpr ⟨alookup_mem hv, by simpa using hp⟩
  have hin := List.mem_map_of_mem Prod.fst hmem
  exact ⟨uninstall_blocked hv (List.ne_nil_of_mem hin), hin⟩

/-- Witness for C10: `a` lists itself as a dependency. -/
theorem C10_self_dependency_blocks_uninstall_witness :
    alookup stSelf.installed "a" = some ⟨"1.0.0", "", ["a.py"], ["a"]⟩ ∧
    "a" ∈ (⟨"1.0.0", "", ["a.py"], ["a"]⟩ : PkgRec).dependencies ∧
    (uninstall (envOk []) "a" stSelf = { stSelf with trace := stSelf.trace ++
      [.blockedMsg "a" ((stSelf.installed.filter
        (fun e => e.2.dependencies.contains "a")).map Prod.fst)] } ∧
     "a" ∈ (stSelf.installed.filter
       (fun e => e.2.dependencies.contains "a")).map Prod.fst) :=
  ⟨rfl, by decide,
    C10_self_dependency_blocks_uninstall (envOk []) "a" stSelf
      ⟨"1.0.0", "", ["a.py"], ["a"]⟩ rfl (by decide)⟩

/-- C6 counterexample: an error invoking the hook process (the modelled
`OSError` from `subprocess.run`, which the code does not catch — it
catches only `CalledProcessError`) IS escalated: a post-install hook
invocation error makes `install` delete the package directory and skip
writing the record, and a pre-uninstall hook invocation error aborts
`uninstall` entirely (the package stays installed), refuting "any hook
failure — non-zero exit or invocation error — ... is never escalated". -/
theorem C6_counterexample :
    (install envHookSpawnFail 1 "a" false st0).installed = [] ∧
    alookup (install envHookSpawnFail 1 "a" false st0).dirs "a" = none ∧
    (uninstall envPreHookSpawnFail "a" stWithA).installed = stWithA.installed ∧
    alookup (uninstall envPreHookSpawnFail "a" stWithA).dirs "a" =
      some ["a.py", "pre_uninstall.py"] :=
  ⟨rfl, rfl, rfl, rfl⟩

/-- C6 (amended): a hook failure by non-zero exit is captured and
reported as a warning and never escalated: a post-install hook exiting
non-zero does not roll back the install — the record is still written
and persisted (first conjunct, which also covers a hook that succeeds
or is absent); and a pre-uninstall hook exiting non-zero does not block
removal — uninstall proceeds to delete the directory and the record
exactly as with a succeeding hook, plus a warning.  (An error invoking
the hook process, by contrast, is not caught and aborts the operation,
as the counterexample shows.) -/
theorem C6_hook_exit_never_escalates :
    (∀ (env : Env) (name : String) (info : Manifest) (st : St),
      (info.files.isEmpty || !(info.files.all (env.fileOk name))) = false →
      env.hook name "post_install.py" ≠ .spawnFail →
      alookup (installFinish env name info st).installed name =
        some (mkRecord info) ∧
      alookup (installFinish env name info st).saved name =
        some (mkRecord info)) ∧
    (∀ (env : Env) (p : String) (st : St) (v : PkgRec),
      alookup st.installed p = some v →
      (st.installed.filter
        (fun e => e.2.dependencies.contains p)).map Prod.fst = [] →
      "pre_uninstall.py" ∈ (alookup st.dirs p).getD [] →
      env.hook p "pre_uninstall.py" = .exitFail →
      uninstall env p st = uninstallCommit p { st with trace := st.trace ++
        [.preUninstallRun p, .hookWarn p "pre_uninstall.py"] }) := by
  constructor
  · intro env name info st h1 hns
    by_cases h2 : "post_install.py" ∈ info.files
    · cases hh : env.hook name "post_install.py" with
      | spawnFail => exact absurd hh hns
      | exitFail =>
        rw [installFinish_hook_exit h1 h2 hh]
        constructor <;> simp [installCommit, alookup_aset_self]
      | ok =>
        rw [installFinish_hook_ok h1 h2 hh]
        constructor <;> simp [installCommit, alookup_aset_self]
    · rw [installFinish_nohook h1 h2]
      constructor <;> simp [installCommit, alookup_aset_self]
  · intro env p st v hv hd0 hpre hh
    exact uninstall_hook_exit hv hd0 hpre hh

/-- Witness for C6 (amended): a post-install hook exiting non-zero
still gets the record written; a pre-uninstall hook exiting non-zero
still lets the removal proceed. -/
theorem C6_hook_exit_never_escalates_witness :
    (alookup (installFinish envHookExit "a"
        (mkM [] ["a.py", "post_install.py"]) st0).installed "a" =
      some (mkRecord (mkM [] ["a.py", "post_install.py"])) ∧
     alookup (installFinish envHookExit "a"
        (mkM [] ["a.py", "post_install.py"]) st0).saved "a" =
      some (mkRecord (mkM [] ["a.py", "post_install.py"]))) ∧
    uninstall envPreHookExit "a" stWithA =
      uninstallCommit "a" { stWithA with trace := stWithA.trace ++
        [.preUninstallRun "a", .hookWarn "a" "pre_uninstall.py"] } :=
  ⟨C6_hook_exit_never_escalates.1 envHookExit "a"
      (mkM [] ["a.py", "post_install.py"]) st0 rfl (by decide),
   C6_hook_exit_never_escalates.2 envPreHookExit "a" stWithA
      ⟨"1.0.0", "", ["a.py", "pre_uninstall.py"], []⟩ rfl rfl (by decide)
      rfl⟩

/-- C7 counterexample: for a package that is not currently installed,
`update(name)` reports "not installed" and mutates nothing, while
`install(name, force=True)` performs a full install — so Update(name)
does not behave identically to Install(name, force=true). -/
theorem C7_counterexample :
    (update (envOk exRepoA) 1 (some "a") st0).installed = [] ∧
    (install (envOk exRepoA) 1 "a" true st0).installed =
      [("a", mkRecord (mkM [] ["a.py", "util.py"]))] ∧
    (update (envOk exRepoA) 1 (some "a") st0).installed ≠
      (install (envOk exRepoA) 1 "a" true st0).installed := by
  refine ⟨rfl, rfl, fun h => ?_⟩
  have h1 : ([] : List (String × PkgRec)) =
      [("a", mkRecord (mkM [] ["a.py", "util.py"]))] := by
    calc ([] : List (String × PkgRec))
        = (update (envOk exRepoA) 1 (some "a") st0).installed := rfl
      _ = (install (envOk exRepoA) 1 "a" true st0).installed := h
      _ = [("a", mkRecord (mkM [] ["a.py", "util.py"]))] := rfl
  exact absurd h1 (by simp)

/-- C7 (amended): `update(name)` behaves identically to
`install(name, force=true)` — the same installed mapping, directories
and persisted file — when `name` is currently installed; when `name` is
not installed it reports "not installed" and mutates nothing; and
`update()` with no name applies `install(p, force=true)` to every
currently installed package sequentially (its state components equal
those of the plain sequential fold of force-installs; individual
failures cannot abort the loop because `install` reports its errors
internally and always returns). -/
theorem C7_update_vs_install (env : Env) (fuel : Nat) (st : St) (n : String) :
    ((alookup st.installed n).isSome = true →
      StCoreEq (update env fuel (some n) st) (install env fuel n true st)) ∧
    ((alookup st.installed n).isNone = true →
      update env fuel (some n) st =
        { st with trace := st.trace ++ [.notInstalledMsg n] }) ∧
    StCoreEq (update env fuel none st)
      ((st.installed.map Prod.fst).foldl
        (fun s p => install env fuel p true s) st) := by
  refine ⟨?_, ?_, ?_⟩
  · intro hi
    have hne : (alookup st.installed n).isNone = false := by
      rcases Option.isSome_iff_exists.mp hi with ⟨v, hv⟩
      rw [hv]; rfl
    simp only [update, hne, Bool.false_eq_true, if_false]
    exact install_coreEq (stCoreEq_trace st _)
  · intro hn
    simp [update, hn]
  · simp only [update]
    exact foldl_update_coreEq (st.installed.map Prod.fst) _ st
      (stCoreEq_trace st _)

/-- Witness for C7 (amended): `a` is installed, so updating it performs
the same state mutations as a forced install. -/
theorem C7_update_vs_install_witness :
    (alookup stWithA.installed "a").isSome = true ∧
    StCoreEq (update (envOk []) 1 (some "a") stWithA)
      (install (envOk []) 1 "a" true stWithA) :=
  ⟨rfl, (C7_update_vs_install (envOk []) 1 stWithA "a").1 rfl⟩

/-- C8: during `install` of a target package with `force=true`, no
dependency-install outcome can abort the target: for EVERY environment
and starting state — in particular ones where resolved dependencies
fail to install because their manifests are missing or their downloads
fail, which `install` merely logs — if the target's own manifest is
fetched, its file list is non-empty, all its own downloads succeed and
its post-install hook does not hit the uncaught invocation error, the
target's record is written and its directory holds its files. -/
theorem C8_dependency_failure_does_not_abort_target (env : Env) (st : St)
    (t : String) (info : Manifest) (fuel : Nat)
    (hm : lookupPkg env.repo t = some info)
    (hne : info.files ≠ [])
    (hok : ∀ f ∈ info.files, env.fileOk t f = true)
    (hns : env.hook t "post_install.py" ≠ .spawnFail) :
    alookup (install env (fuel + 1) t true st).installed t =
      some (mkRecord info) ∧
    alookup (install env (fuel + 1) t true st).dirs t = some info.files := by
  have ha : ((alookup st.installed t).isSome && !true) = false := by simp
  rw [install_fetch fuel ha hm]
  have ha2 : ((alookup (installDeps env fuel t
      (resolveTop env.repo st.installed t).out
      { st with trace := st.trace ++ [.installingMsg t, .fetchManifest t true] ++
          (resolveTop env.repo st.installed t).tr }).dirs t).isSome && !true) =
      false := by simp
  rw [installAfterDeps_go ha2]
  have hdl : (info.files.isEmpty || !(info.files.all (env.fileOk t))) = false := by
    have hall : info.files.all (env.fileOk t) = true :=
      List.all_eq_true.mpr hok
    simp [hall, List.isEmpty_iff, hne]
  by_cases h2 : "post_install.py" ∈ info.files
  · cases hh : env.hook t "post_install.py" with
    | spawnFail => exact absurd hh hns
    | exitFail =>
      rw [installFinish_hook_exit hdl h2 hh]
      constructor <;> simp [installCommit, alookup_aset_self]
    | ok =>
      rw [installFinish_hook_ok hdl h2 hh]
      constructor <;> simp [installCommit, alookup_aset_self]
  · rw [installFinish_nohook hdl h2]
    constructor <;> simp [installCommit, alookup_aset_self]

/-- Witness for C8: `a` depends on `zz`, whose manifest fetch fails (a
dependency-install failure); `a` is still downloaded and committed. -/
theorem C8_dependency_failure_does_not_abort_target_witness :
    lookupPkg (envOk exRepoDep).repo "a" = some (mkM ["zz"] ["a.py"]) ∧
    lookupPkg (envOk exRepoDep).repo "zz" = none ∧
    (alookup (install (envOk exRepoDep) 1 "a" true st0).installed "a" =
        some (mkRecord (mkM ["zz"] ["a.py"])) ∧
      alookup (install (envOk exRepoDep) 1 "a" true st0).dirs "a" =
        some (mkM ["zz"] ["a.py"]).files) :=
  ⟨rfl, rfl,
    C8_dependency_failure_does_not_abort_target (envOk exRepoDep) st0 "a"
      (mkM ["zz"] ["a.py"]) 0 rfl (by decide) (by decide) (by decide)⟩
